import Mathlib

set_option autoImplicit false

/-!
Verification of the mountain-climber hash-table library.

Embedded components:
* the open-addressed linear-probing table (`LPT`), modelled from the spec
  (its source, `data_structures/hash_table.py`, is a scaffold that is not part
  of the repository sources; §4.1 and §9 of the spec describe it);
* the double-key table (`DKT`), translated from `src/double_key_table.py`;
* the recursive-split "infinite" table (`RST`), translated from
  `src/infinite_hash_table.py`.

Keys are sequences of character codes, values are an arbitrary type.  Machine
state is passed explicitly; fallible operations return `Except`.  Loops that
are unbounded in the source carry an explicit fuel that is ample for every
terminating source run, so the model agrees with the source whenever the
source terminates; fuel exhaustion is observable (`Option.none`) where the
source would loop forever.
-/

/-- A key: the sequence of character codes of a Python string. -/
abbrev Key := List Nat

/-- The error surface of the tables: `KeyError`, `FullError` and (reachable
through the `_rehash` slip in `double_key_table.py`) `IndexError`. -/
inductive TErr where
  | keyNotFound
  | tableFull
  | indexError
deriving DecidableEq, Repr

/-- The default capacity ladder `TABLE_SIZES` of `double_key_table.py`
(lines 33-34), also used by the scaffold table. -/
def defaultTableSizes : List Nat :=
  [5, 13, 29, 53, 97, 193, 389, 769, 1543, 3079, 6151, 12289, 24593, 49157,
   98317, 196613, 393241, 786433, 1572869]

/-- The polynomial rolling hash of `hash1`/`hash2` (`double_key_table.py`
lines 45-69): `value = (code + a * value) mod cap` with `a` starting at
`31415` and updated as `a = a * 31 mod (cap - 1)`.  Following §9 of the spec
the capacity is an explicit parameter, which also models the per-table
rebinding `internal_table.hash = lambda k: self.hash2(k, internal_table)`. -/
def rollingHash (k : Key) (cap : Nat) : Nat :=
  (k.foldl (fun p c => ((c + p.2 * p.1) % cap, p.2 * 31 % (cap - 1))) (0, 31415)).1

/-! ## The open-addressed table (modelled from the spec, §4.1) -/

/-- Modelled from the spec: the open-addressed table of §3/§4.1 (the scaffold
`LinearProbeTable`, absent from the sources).  A flat array of optional
`(key, value)` slots, a configured capacity ladder with the index of the
current rung, and an occupancy count. -/
structure LPT (K V : Type) where
  sizes : List Nat
  sizeIndex : Nat
  array : List (Option (K × V))
  count : Nat
deriving Repr

/-- Modelled from the spec: a table created empty on the first rung of its
capacity ladder. -/
def lptEmpty (K V : Type) (sizes : List Nat) : LPT K V :=
  { sizes := sizes, sizeIndex := 0,
    array := List.replicate (sizes.getD 0 0) none, count := 0 }

/-- Modelled from the spec: the linear probe scan of §4.1.  Starting from
`pos`, scan with wraparound; an empty slot succeeds for an insert and fails
for a lookup, a slot holding the key succeeds, and exhausting the scan
(`fuel` starts at the capacity) signals a full table (insert) or a missing
key (lookup). -/
def probeAux {K V : Type} [DecidableEq K] (arr : List (Option (K × V)))
    (k : K) (ins : Bool) : Nat → Nat → Except TErr Nat
  | _pos, 0 => .error (if ins then .tableFull else .keyNotFound)
  | pos, fuel + 1 =>
    match arr.getD pos none with
    | none => if ins then .ok pos else .error .keyNotFound
    | some kv =>
      if kv.1 = k then .ok pos
      else probeAux arr k ins ((pos + 1) % arr.length) fuel

/-- Modelled from the spec: `_linear_probe` — the scan of `probeAux` started
at the key's hash position with one round of fuel per slot. -/
def lptProbe {K V : Type} [DecidableEq K] (h : K → Nat → Nat) (t : LPT K V)
    (k : K) (ins : Bool) : Except TErr Nat :=
  probeAux t.array k ins (h k t.array.length) t.array.length

/-- Modelled from the spec: lookup — probe without inserting and read the
slot. -/
def lptGet {K V : Type} [DecidableEq K] (h : K → Nat → Nat) (t : LPT K V)
    (k : K) : Except TErr V :=
  match lptProbe h t k false with
  | .error e => .error e
  | .ok pos =>
    match t.array.getD pos none with
    | some kv => .ok kv.2
    | none => .error .keyNotFound

/-- Modelled from the spec: store a pair at a probed slot, incrementing the
count exactly when the slot was empty. -/
def lptStoreAt {K V : Type} (t : LPT K V) (pos : Nat) (k : K) (v : V) :
    LPT K V :=
  { t with array := t.array.set pos (some (k, v)),
           count := t.count + (if (t.array.getD pos none).isNone then 1 else 0) }

/-- Modelled from the spec: §4.1 resize — a silent no-op once the last rung of
the capacity ladder is reached, otherwise allocate the next configured
capacity, reset the count and reinsert every occupied entry through the
normal insert path `ins`. -/
def lptRehashCore {K V : Type} (ins : LPT K V → K → V → Except TErr (LPT K V))
    (t : LPT K V) : Except TErr (LPT K V) :=
  if t.sizes.length ≤ t.sizeIndex + 1 then .ok t
  else
    let newCap := t.sizes.getD (t.sizeIndex + 1) 0
    let t0 : LPT K V := { sizes := t.sizes, sizeIndex := t.sizeIndex + 1,
                          array := List.replicate newCap none, count := 0 }
    t.array.foldl (fun acc cell =>
      match acc, cell with
      | .error e, _ => .error e
      | .ok a, none => .ok a
      | .ok a, some kv => ins a kv.1 kv.2) (.ok t0)

/-- Modelled from the spec: §4.1 insert — probe for the slot, store, and
resize when occupancy exceeds half the capacity (`len > table_size / 2`).
The fuel bounds the nesting depth of resizes triggered while reinserting;
one unit per rung of the capacity ladder is ample, so runs considered by the
theorems never hit the `0` case. -/
def lptSetFuel {K V : Type} [DecidableEq K] (h : K → Nat → Nat) :
    Nat → LPT K V → K → V → Except TErr (LPT K V)
  | fuel, t, k, v =>
    match lptProbe h t k true with
    | .error e => .error e
    | .ok pos =>
      let t1 := lptStoreAt t pos k v
      if 2 * t1.count > t1.array.length then
        match fuel with
        | 0 => .ok t1
        | fuel' + 1 =>
          lptRehashCore (fun a b c => lptSetFuel h fuel' a b c) t1
      else .ok t1

/-- Modelled from the spec: `_rehash` of the scaffold table, with fuelled
reinsertion. -/
def lptRehashFuel {K V : Type} [DecidableEq K] (h : K → Nat → Nat) (fuel : Nat)
    (t : LPT K V) : Except TErr (LPT K V) :=
  lptRehashCore (fun a b c => lptSetFuel h fuel a b c) t

/-- Modelled from the spec: the public insert, with ample fuel. -/
def lptSet {K V : Type} [DecidableEq K] (h : K → Nat → Nat) (t : LPT K V)
    (k : K) (v : V) : Except TErr (LPT K V) :=
  lptSetFuel h (t.sizes.length + 2) t k v

/-- Modelled from the spec: the public resize, with ample fuel. -/
def lptRehash {K V : Type} [DecidableEq K] (h : K → Nat → Nat) (t : LPT K V) :
    Except TErr (LPT K V) :=
  lptRehashFuel h (t.sizes.length + 2) t

/-- Modelled from the spec: the deletion walk of §4.1 — starting just past the
cleared slot, repeatedly take out the next occupied entry and reinsert it via
a fresh probe, stopping at the first empty slot.  The walk is unbounded in
the source; the cubic fuel exceeds the number of steps of every terminating
run. -/
def lptDelWalk {K V : Type} [DecidableEq K] (h : K → Nat → Nat) :
    Nat → LPT K V → Nat → LPT K V
  | 0, t, _pos => t
  | fuel + 1, t, pos =>
    match t.array.getD pos none with
    | none => t
    | some kv =>
      let t1 : LPT K V := { t with array := t.array.set pos none }
      match lptProbe h t1 kv.1 true with
      | .error _ => t1
      | .ok newpos =>
        lptDelWalk h fuel
          { t1 with array := t1.array.set newpos (some kv) }
          ((pos + 1) % t.array.length)

/-- Modelled from the spec: §4.1 deletion — probe for the key, clear its slot,
decrement the count, then run the reinsertion walk on the run that follows. -/
def lptDel {K V : Type} [DecidableEq K] (h : K → Nat → Nat) (t : LPT K V)
    (k : K) : Except TErr (LPT K V) :=
  match lptProbe h t k false with
  | .error e => .error e
  | .ok pos =>
    let t1 : LPT K V := { t with array := t.array.set pos none,
                                 count := t.count - 1 }
    .ok (lptDelWalk h
      ((t.array.length + 1) * (t.array.length + 1) * (t.array.length + 1))
      t1 ((pos + 1) % t.array.length))

/-- Modelled from the spec: `keys()` — the stored keys in array order. -/
def lptKeys {K V : Type} (t : LPT K V) : List K :=
  t.array.foldr (fun c acc => match c with
    | some kv => kv.1 :: acc
    | none => acc) []

/-- Modelled from the spec: `values()` — the stored values in array order. -/
def lptValuesList {K V : Type} (t : LPT K V) : List V :=
  t.array.foldr (fun c acc => match c with
    | some kv => kv.2 :: acc
    | none => acc) []

/-- Modelled from the spec: `__contains__` answers by attempting a lookup. -/
def lptContains {K V : Type} [DecidableEq K] (h : K → Nat → Nat) (t : LPT K V)
    (k : K) : Bool :=
  (lptGet h t k).isOk

/-- Modelled from the spec: `__len__` returns the occupancy count. -/
def lptLen {K V : Type} (t : LPT K V) : Nat := t.count

/-! ## The double-key table (`src/double_key_table.py`) -/

/-- The double-key table (`double_key_table.py` lines 18-43): an outer
open-addressed table whose values are inner open-addressed tables, plus the
remembered `internal_sizes` argument (`None` selects the default ladder). -/
structure DKT (V : Type) where
  outer : LPT Key (LPT Key V)
  internalSizes : Option (List Nat)

/-- `DoubleKeyTable.__init__` (lines 38-43). -/
def dktNew (V : Type) (sizes internalSizes : Option (List Nat)) : DKT V :=
  { outer := lptEmpty Key (LPT Key V) (sizes.getD defaultTableSizes),
    internalSizes := internalSizes }

/-- `DoubleKeyTable._linear_probe` (lines 71-113).  The loop scans the outer
array exactly like `probeAux`; the actions taken at the two successful exits
(create the inner table on an empty slot during insert, or probe the found
inner table) are performed on the scan's result.  On an empty slot during an
insert the outer count is incremented, the inner table is created with
`internal_sizes`, its hash is `hash2` (the capacity-passing `rollingHash`),
and the second position is the plain hash of `key2` into the fresh table. -/
def dktLinearProbe {V : Type} (t : DKT V) (k1 k2 : Key) (ins : Bool) :
    Except TErr (DKT V × Nat × Nat) :=
  let cap := t.outer.array.length
  match probeAux t.outer.array k1 ins (rollingHash k1 cap) cap with
  | .error e => .error e
  | .ok pos1 =>
    match t.outer.array.getD pos1 none with
    | none =>
      if ins then
        let inner := lptEmpty Key V (t.internalSizes.getD defaultTableSizes)
        let outer1 : LPT Key (LPT Key V) :=
          { t.outer with array := t.outer.array.set pos1 (some (k1, inner)),
                         count := t.outer.count + 1 }
        .ok ({ t with outer := outer1 }, pos1,
             rollingHash k2 inner.array.length)
      else .error .keyNotFound
    | some kin =>
      match lptProbe rollingHash kin.2 k2 ins with
      | .error e => .error e
      | .ok pos2 => .ok (t, pos1, pos2)

/-- `DoubleKeyTable.__getitem__` (lines 239-255): probe without inserting and
read `outer.array[p1][1].array[p2][1]`. -/
def dktGet {V : Type} (t : DKT V) (k1 k2 : Key) : Except TErr V :=
  match dktLinearProbe t k1 k2 false with
  | .error e => .error e
  | .ok (_, pos1, pos2) =>
    match t.outer.array.getD pos1 none with
    | some kin =>
      match kin.2.array.getD pos2 none with
      | some kv => .ok kv.2
      | none => .error .keyNotFound
    | none => .error .keyNotFound

/-- `DoubleKeyTable.__contains__` (lines 226-237): attempt the lookup. -/
def dktContains {V : Type} (t : DKT V) (k1 k2 : Key) : Bool :=
  (dktGet t k1 k2).isOk

/-- `DoubleKeyTable._rehash` (lines 303-330).  Note the source increments
`size_index` before the `== len(TABLE_SIZES)` guard: the first saturated
resize is a silent no-op that leaves `size_index` equal to the ladder length,
and a second one runs past the guard and evaluates
`TABLE_SIZES[size_index]` out of range (`IndexError`).  Reinsertion goes
through the scaffold `__setitem__` with the hash rebound to `hash1` of the
stored key, i.e. the capacity-passing `rollingHash`. -/
def dktRehash {V : Type} (t : DKT V) : Except TErr (DKT V) :=
  let temp := t.outer.array
  let si := t.outer.sizeIndex + 1
  if si = t.outer.sizes.length then
    .ok { t with outer := { t.outer with sizeIndex := si } }
  else
    match t.outer.sizes.get? si with
    | none => .error .indexError
    | some newCap =>
      let outer0 : LPT Key (LPT Key V) :=
        { sizes := t.outer.sizes, sizeIndex := si,
          array := List.replicate newCap none, count := 0 }
      match temp.foldl (fun (acc : Except TErr (LPT Key (LPT Key V))) cell =>
        match acc, cell with
        | .error e, _ => .error e
        | .ok a, none => .ok a
        | .ok a, some kv => lptSet rollingHash a kv.1 kv.2) (.ok outer0) with
      | .error e => .error e
      | .ok outer1 => .ok { t with outer := outer1 }

/-- `DoubleKeyTable.__setitem__` (lines 257-279): probe with insert, store the
pair into the inner table and increment the inner count unconditionally (the
source's `internal_table.count += 1`, also on an overwrite), resize the inner
table past half load, then resize the outer table past half load. -/
def dktSet {V : Type} (t : DKT V) (k1 k2 : Key) (v : V) :
    Except TErr (DKT V) :=
  match dktLinearProbe t k1 k2 true with
  | .error e => .error e
  | .ok (t', pos1, pos2) =>
    match t'.outer.array.getD pos1 none with
    | none => .error .keyNotFound
    | some kin =>
      let inner1 : LPT Key V :=
        { kin.2 with array := kin.2.array.set pos2 (some (k2, v)),
                     count := kin.2.count + 1 }
      match (if 2 * inner1.count > inner1.array.length
             then lptRehash rollingHash inner1 else .ok inner1) with
      | .error e => .error e
      | .ok inner2 =>
        let t2 : DKT V :=
          { t' with outer :=
              { t'.outer with
                  array := t'.outer.array.set pos1 (some (kin.1, inner2)) } }
        if 2 * t2.outer.count > t2.outer.array.length then dktRehash t2
        else .ok t2

/-- `DoubleKeyTable.__delitem__` (lines 281-301): probe without inserting,
delete `key2` from the inner table, and if the inner table became empty clear
the outer slot (without any repair of the following probe run) and decrement
the outer count. -/
def dktDel {V : Type} (t : DKT V) (k1 k2 : Key) : Except TErr (DKT V) :=
  match dktLinearProbe t k1 k2 false with
  | .error e => .error e
  | .ok (_, pos1, _pos2) =>
    match t.outer.array.getD pos1 none with
    | none => .error .keyNotFound
    | some kin =>
      match lptDel rollingHash kin.2 k2 with
      | .error e => .error e
      | .ok inner1 =>
        if inner1.count = 0 then
          .ok { t with outer :=
                  { t.outer with array := t.outer.array.set pos1 none,
                                 count := t.outer.count - 1 } }
        else
          .ok { t with outer :=
                  { t.outer with
                      array := t.outer.array.set pos1 (some (kin.1, inner1)) } }

/-- `DoubleKeyTable.keys(None)` (line 138): the scaffold `keys()` of the
outer table — top-level keys in array order. -/
def dktKeysNone {V : Type} (t : DKT V) : List Key := lptKeys t.outer

/-- `DoubleKeyTable.keys` (lines 115-140).  The source tests `if key:`, so an
empty (falsy) key falls into the `None` branch; a truthy key is probed in the
outer table (with the hash rebound to `hash1(key)`, i.e. a scan starting at
`rollingHash key cap`) and the inner table's keys are collected in array
order. -/
def dktKeys {V : Type} (t : DKT V) (key : Option Key) :
    Except TErr (List Key) :=
  match key with
  | some k =>
    if k = [] then .ok (dktKeysNone t)
    else
      match probeAux t.outer.array k false
          (rollingHash k t.outer.array.length) t.outer.array.length with
      | .error e => .error e
      | .ok pos =>
        match t.outer.array.getD pos none with
        | some kin => .ok (lptKeys kin.2)
        | none => .error .keyNotFound
  | none => .ok (dktKeysNone t)

/-- One step of the `values(None)` walk (lines 160-170): probe the top-level
key and append the whole inner table's values. -/
def dktValuesStep {V : Type} (t : DKT V) (acc : Except TErr (List V))
    (k : Key) : Except TErr (List V) :=
  match acc with
  | .error e => .error e
  | .ok l =>
    match probeAux t.outer.array k false
        (rollingHash k t.outer.array.length) t.outer.array.length with
    | .error e => .error e
    | .ok pos =>
      match t.outer.array.getD pos none with
      | some kin => .ok (l ++ lptValuesList kin.2)
      | none => .error .keyNotFound

/-- `DoubleKeyTable.values` (lines 142-177).  `values(None)` walks
`keys(None)` in order, probes each top-level key and appends the whole inner
table's values; `values(k1)` (tested with `is None`, so also for an empty
key) probes `k1` and returns its inner table's values. -/
def dktValues {V : Type} (t : DKT V) (key : Option Key) :
    Except TErr (List V) :=
  match key with
  | none => (dktKeysNone t).foldl (dktValuesStep t) (.ok [])
  | some k =>
    match probeAux t.outer.array k false
        (rollingHash k t.outer.array.length) t.outer.array.length with
    | .error e => .error e
    | .ok pos =>
      match t.outer.array.getD pos none with
      | some kin => .ok (lptValuesList kin.2)
      | none => .error .keyNotFound

/-- `DoubleKeyTable.table_size` (lines 332-337). -/
def dktTableSize {V : Type} (t : DKT V) : Nat := t.outer.array.length

/-- `DoubleKeyTable.__len__` (lines 339-343): the outer count. -/
def dktLen {V : Type} (t : DKT V) : Nat := t.outer.count

/-! ## The recursive-split table (`src/infinite_hash_table.py`) -/

/-- One slot content of the recursive-split table: a `(key, value)` leaf
tuple or a nested 27-slot sub-table (an empty slot is `Option.none`
around this type). -/
inductive RCell (V : Type) where
  | pair (k : Key) (v : V)
  | sub (tbl : List (Option (RCell V)))

/-- Any sub-table obtained from a slot is structurally smaller; this drives
the recursions over the nested table. -/
theorem RCell.sizeOf_of_getD_sub {V : Type} [SizeOf V]
    {tbl : List (Option (RCell V))} {i : Nat} {t : List (Option (RCell V))}
    (h : tbl.getD i none = some (RCell.sub t)) : sizeOf t < sizeOf tbl := by
  unfold List.getD at h
  cases hq : tbl.get? i with
  | none => rw [hq] at h; simp at h
  | some e =>
    rw [hq] at h
    simp only [Option.getD_some] at h
    subst h
    have hm := List.get?_mem hq
    have := List.sizeOf_lt_of_mem hm
    simp only [Option.some.sizeOf_spec, RCell.sub.sizeOf_spec] at this
    omega

/-- `InfiniteHashTable` state (`infinite_hash_table.py` lines 26-34): the
27-slot root array, the mutable `level` cursor used by `hash`, the entry
count and the redundant list of live keys.  The `container` stack is empty
between operations and is modelled as the local pending list of the insert;
the `switch` flag is written once and never read. -/
structure RST (V : Type) where
  array : List (Option (RCell V))
  level : Nat
  count : Nat
  keys : List Key

/-- `TABLE_SIZE = 27` empty slots. -/
def rstEmptyTable (V : Type) : List (Option (RCell V)) := List.replicate 27 none

/-- `InfiniteHashTable.__init__`. -/
def rstNew (V : Type) : RST V :=
  { array := rstEmptyTable V, level := 0, count := 0, keys := [] }

/-- `InfiniteHashTable.hash` (lines 36-39) at a given level: character
`level` of the key modulo 26 while characters remain, else the reserved
terminal slot 26. -/
def rstHashAt (lvl : Nat) (k : Key) : Nat :=
  if lvl < k.length then k.getD lvl 0 % 26 else 26

/-- `InfiniteHashTable.get_location` (lines 150-174), with the resulting
`self.level` returned alongside: the empty-slot failure and the success reset
`level` to 0, but the failure on a leaf holding a *different* key raises with
`level` left at the current depth (the state leak behind claim C5). -/
def rstLocGo {V : Type} (k : Key) (lvl : Nat)
    (tbl : List (Option (RCell V))) : Except TErr (List Nat) × Nat :=
  let pos := rstHashAt lvl k
  match h : tbl.getD pos none with
  | none => (.error .keyNotFound, 0)
  | some (.pair k0 _) =>
    if k0 = k then (.ok [pos], 0) else (.error .keyNotFound, lvl)
  | some (.sub t) =>
    match rstLocGo k (lvl + 1) t with
    | (.ok rest, l) => (.ok (pos :: rest), l)
    | (.error e, l) => (.error e, l)
termination_by sizeOf tbl
decreasing_by exact RCell.sizeOf_of_getD_sub h

/-- `get_location` from the root (the method always restarts `self.level`
at 0). -/
def rstGetLocation {V : Type} (s : RST V) (k : Key) :
    Except TErr (List Nat) × Nat :=
  rstLocGo k 0 s.array

/-- The index walk of `__getitem__` (lines 47-51): follow the located path
down the nested arrays and read the tuple's value. -/
def rstFollowPath {V : Type} :
    List (Option (RCell V)) → List Nat → Option (Key × V)
  | _, [] => none
  | tbl, [i] =>
    match tbl.getD i none with
    | some (.pair k v) => some (k, v)
    | _ => none
  | tbl, i :: rest =>
    match tbl.getD i none with
    | some (.sub t) => rstFollowPath t rest
    | _ => none

/-- `InfiniteHashTable.__getitem__` (lines 41-51) together with the state it
leaves behind (only `level` can change, through `get_location`). -/
def rstGetS {V : Type} (s : RST V) (k : Key) : Except TErr V × RST V :=
  match rstGetLocation s k with
  | (.error e, l) => (.error e, { s with level := l })
  | (.ok path, l) =>
    match rstFollowPath s.array path with
    | some kv => (.ok kv.2, { s with level := l })
    | none => (.error .keyNotFound, { s with level := l })

/-- The value part of a lookup. -/
def rstGet {V : Type} (s : RST V) (k : Key) : Except TErr V := (rstGetS s k).1

/-- `InfiniteHashTable.__contains__` (lines 137-148): attempt the lookup
(whose `level` effect persists). -/
def rstContainsS {V : Type} (s : RST V) (k : Key) : Bool × RST V :=
  ((rstGetS s k).1.isOk, (rstGetS s k).2)

/-- `get_level` (lines 176-198): whether the pending colliding entries hash
to pairwise distinct slots at the current level. -/
def natListDistinct : List Nat → Bool
  | [] => true
  | a :: rest => (!rest.contains a) && natListDistinct rest

/-- `get_level` applied to the pending entries of a split. -/
def rstDistinct {V : Type} (lvl : Nat) (pending : List (Key × V)) : Bool :=
  natListDistinct (pending.map (fun kv => rstHashAt lvl kv.1))

/-- The collision-splitting inner `while True` loop of `__setitem__`
(lines 87-100): at each level either the pending entries (in stack pop
order) hash to distinct slots and are all placed into a fresh node, or a
deeper fresh node is linked at the inserted key's slot and the loop
descends.  The loop is unbounded in the source; `none` reports fuel
exhaustion, which corresponds to a source-level infinite loop when no level
separates the pending entries. -/
def rstChain {V : Type} : Nat → Nat → Key → List (Key × V) →
    Option (List (Option (RCell V)))
  | 0, _, _, _ => none
  | fuel + 1, lvl, k, pending =>
    if rstDistinct lvl pending then
      some (pending.foldl
        (fun tb kv => tb.set (rstHashAt lvl kv.1) (some (.pair kv.1 kv.2)))
        (rstEmptyTable V))
    else
      match rstChain fuel (lvl + 1) k pending with
      | none => none
      | some t => some ((rstEmptyTable V).set (rstHashAt lvl k) (some (.sub t)))

/-- The descent of `__setitem__` (lines 53-103) through the nested arrays:
place on an empty slot (count delta 1), overwrite in place on the same key
(count delta 0), split via `rstChain` on a leaf collision (the source pushes
`(key, value)` then the displaced leaf, so the pop order is displaced leaf
first), or descend into a sub-table. -/
def rstSetGo {V : Type} (fuel : Nat) (k : Key) (v : V) (lvl : Nat)
    (tbl : List (Option (RCell V))) : Option (List (Option (RCell V)) × Nat) :=
  let pos := rstHashAt lvl k
  match h : tbl.getD pos none with
  | none => some (tbl.set pos (some (.pair k v)), 1)
  | some (.pair k0 v0) =>
    if k0 = k then some (tbl.set pos (some (.pair k v)), 0)
    else
      match rstChain fuel (lvl + 1) k [(k0, v0), (k, v)] with
      | none => none
      | some sub => some (tbl.set pos (some (.sub sub)), 1)
  | some (.sub t) =>
    match rstSetGo fuel k v (lvl + 1) t with
    | none => none
    | some td => some (tbl.set pos (some (.sub td.1)), td.2)
termination_by sizeOf tbl
decreasing_by exact RCell.sizeOf_of_getD_sub h

/-- `InfiniteHashTable.__setitem__` (lines 53-103): record the key in the
side list, then run the descent.  The first hash is taken at the *current*
`self.level` (normally 0; not reset by the method itself), and every
successful exit resets `level` to 0. -/
def rstSetF {V : Type} (fuel : Nat) (s : RST V) (k : Key) (v : V) :
    Option (RST V) :=
  let keys1 := if s.keys.contains k then s.keys else s.keys ++ [k]
  match rstSetGo fuel k v s.level s.array with
  | none => none
  | some ad =>
    some { array := ad.1, level := 0, count := s.count + ad.2, keys := keys1 }

/-- `InfiniteHashTable.__len__`. -/
def rstLen {V : Type} (s : RST V) : Nat := s.count

/-! ## Generic helpers -/

theorem getD_set_self {α : Type} (l : List α) (p : Nat) (x d : α)
    (hp : p < l.length) : (l.set p x).getD p d = x := by
  induction l generalizing p with
  | nil => simp at hp
  | cons a rest ih =>
    cases p with
    | zero => simp [List.set, List.getD]
    | succ q =>
      simp only [List.set, List.getD_cons_succ]
      exact ih q (by simpa using hp)

theorem getD_set_other {α : Type} (l : List α) (p q : Nat) (x d : α)
    (h : p ≠ q) : (l.set p x).getD q d = l.getD q d := by
  induction l generalizing p q with
  | nil => simp [List.set]
  | cons a rest ih =>
    cases p with
    | zero =>
      cases q with
      | zero => exact absurd rfl h
      | succ q' => simp [List.set, List.getD]
    | succ p' =>
      cases q with
      | zero => simp [List.set, List.getD]
      | succ q' =>
        simp only [List.set, List.getD_cons_succ]
        exact ih p' q' (fun he => h (by rw [he]))

theorem getD_replicate_lt {α : Type} (n i : Nat) (a d : α) (hi : i < n) :
    (List.replicate n a).getD i d = a := by
  induction n generalizing i with
  | zero => omega
  | succ m ih =>
    cases i with
    | zero => simp [List.replicate, List.getD]
    | succ j =>
      simp only [List.replicate, List.getD_cons_succ]
      exact ih j (by omega)

theorem getD_ge_length {α : Type} (l : List α) (i : Nat) (d : α)
    (hi : l.length ≤ i) : l.getD i d = d := by
  induction l generalizing i with
  | nil => simp [List.getD]
  | cons a rest ih =>
    cases i with
    | zero => simp at hi
    | succ j =>
      simp only [List.getD_cons_succ]
      exact ih j (by simpa using hi)

/-- Occupied-slot count of an array. -/
def countOcc {K V : Type} (arr : List (Option (K × V))) : Nat :=
  arr.countP (fun c => c.isSome)

theorem countOcc_nil {K V : Type} : countOcc ([] : List (Option (K × V))) = 0 := rfl

theorem countOcc_replicate {K V : Type} (n : Nat) :
    countOcc (List.replicate n (none : Option (K × V))) = 0 := by
  induction n with
  | zero => rfl
  | succ m ih => simpa [countOcc, List.replicate, List.countP_cons] using ih

theorem countOcc_set_some_of_none {K V : Type} (arr : List (Option (K × V)))
    (p : Nat) (kv : K × V) (hp : p < arr.length)
    (h : arr.getD p none = none) :
    countOcc (arr.set p (some kv)) = countOcc arr + 1 := by
  induction arr generalizing p with
  | nil => simp at hp
  | cons c rest ih =>
    cases p with
    | zero =>
      simp only [List.getD_cons_zero] at h
      subst h
      simp [countOcc, List.set, List.countP_cons]
    | succ q =>
      simp only [List.getD_cons_succ] at h
      have := ih q (by simpa using hp) h
      simp only [List.set, countOcc, List.countP_cons] at *
      omega

theorem countOcc_set_some_of_some {K V : Type} (arr : List (Option (K × V)))
    (p : Nat) (kv kv' : K × V)
    (h : arr.getD p none = some kv') :
    countOcc (arr.set p (some kv)) = countOcc arr := by
  induction arr generalizing p with
  | nil => simp [List.getD] at h
  | cons c rest ih =>
    cases p with
    | zero =>
      simp only [List.getD_cons_zero] at h
      subst h
      simp [countOcc, List.set, List.countP_cons]
    | succ q =>
      simp only [List.getD_cons_succ] at h
      have := ih q h
      simp only [List.set, countOcc, List.countP_cons] at *
      omega

/-- The entries of an array in slot order. -/
def entriesOf {K V : Type} (arr : List (Option (K × V))) : List (K × V) :=
  arr.foldr (fun c acc => match c with
    | some kv => kv :: acc
    | none => acc) []

theorem mem_entriesOf {K V : Type} (arr : List (Option (K × V))) (kv : K × V) :
    kv ∈ entriesOf arr ↔ ∃ p, arr.getD p none = some kv := by
  induction arr with
  | nil =>
    simp only [entriesOf, List.foldr_nil, List.not_mem_nil, false_iff]
    rintro ⟨p, hp⟩
    simp [List.getD] at hp
  | cons c rest ih =>
    cases c with
    | none =>
      simp only [entriesOf, List.foldr_cons] at *
      rw [ih]
      constructor
      · rintro ⟨p, hp⟩; exact ⟨p + 1, by simpa using hp⟩
      · rintro ⟨p, hp⟩
        cases p with
        | zero => simp at hp
        | succ q => exact ⟨q, by simpa using hp⟩
    | some kv' =>
      simp only [entriesOf, List.foldr_cons, List.mem_cons] at *
      constructor
      · rintro (he | hm)
        · exact ⟨0, by simp [he]⟩
        · obtain ⟨p, hp⟩ := ih.1 hm
          exact ⟨p + 1, by simpa using hp⟩
      · rintro ⟨p, hp⟩
        cases p with
        | zero =>
          left
          simpa using hp.symm
        | succ q =>
          right
          exact ih.2 ⟨q, by simpa using hp⟩

theorem entriesOf_length {K V : Type} (arr : List (Option (K × V))) :
    (entriesOf arr).length = countOcc arr := by
  induction arr with
  | nil => rfl
  | cons c rest ih =>
    cases c <;> simp [entriesOf, countOcc, List.countP_cons] at * <;> omega

theorem lptKeys_eq_entries {K V : Type} (t : LPT K V) :
    lptKeys t = (entriesOf t.array).map Prod.fst := by
  show t.array.foldr _ [] = _
  induction t.array with
  | nil => rfl
  | cons c rest ih => cases c <;> simp [entriesOf, List.foldr_cons] at * <;> simp [ih]

theorem lptValuesList_eq_entries {K V : Type} (t : LPT K V) :
    lptValuesList t = (entriesOf t.array).map Prod.snd := by
  show t.array.foldr _ [] = _
  induction t.array with
  | nil => rfl
  | cons c rest ih => cases c <;> simp [entriesOf, List.foldr_cons] at * <;> simp [ih]

/-! ## Characterization of the probe scan -/

/-- The first `j` slots of a scan starting at `pos` are occupied by keys
other than `k`. -/
def scanClear {K V : Type} (arr : List (Option (K × V))) (k : K)
    (pos j : Nat) : Prop :=
  ∀ i, i < j → ∃ kv : K × V,
    arr.getD ((pos + i) % arr.length) none = some kv ∧ kv.1 ≠ k

/-- A successful probe ends on an empty slot (insert) or on the key's slot. -/
def probeEnd {K V : Type} (arr : List (Option (K × V))) (k : K) (ins : Bool)
    (q : Nat) : Prop :=
  (arr.getD q none = none ∧ ins = true) ∨
  (∃ kv : K × V, arr.getD q none = some kv ∧ kv.1 = k)

theorem scanClear_zero {K V : Type} (arr : List (Option (K × V))) (k : K)
    (pos : Nat) : scanClear arr k pos 0 := by
  intro i hi; omega

theorem probeAux_ok_iff {K V : Type} [DecidableEq K]
    (arr : List (Option (K × V))) (k : K) (ins : Bool) :
    ∀ (fuel pos q : Nat), pos < arr.length →
    (probeAux arr k ins pos fuel = .ok q ↔
      ∃ j, j < fuel ∧ q = (pos + j) % arr.length ∧ scanClear arr k pos j ∧
        probeEnd arr k ins q) := by
  intro fuel
  induction fuel with
  | zero =>
    intro pos q hpos
    constructor
    · intro h; simp [probeAux] at h
    · rintro ⟨j, hj, _⟩; omega
  | succ fuel ih =>
    intro pos q hpos
    have hlen : 0 < arr.length := Nat.lt_of_le_of_lt (Nat.zero_le _) hpos
    have hposmod : pos % arr.length = pos := Nat.mod_eq_of_lt hpos
    constructor
    · intro h
      cases harr : arr.getD pos none with
      | none =>
        simp only [probeAux, harr] at h
        cases ins with
        | false => simp at h
        | true =>
          simp only [if_pos] at h
          cases h
          exact ⟨0, by omega, by simp [hposmod], scanClear_zero arr k pos,
            Or.inl ⟨harr, rfl⟩⟩
      | some kv =>
        simp only [probeAux, harr] at h
        by_cases hk : kv.1 = k
        · rw [if_pos hk] at h
          cases h
          exact ⟨0, by omega, by simp [hposmod], scanClear_zero arr k pos,
            Or.inr ⟨kv, harr, hk⟩⟩
        · rw [if_neg hk] at h
          have hpos' : (pos + 1) % arr.length < arr.length := Nat.mod_lt _ hlen
          obtain ⟨j, hj, hq, hsc, hend⟩ := (ih ((pos + 1) % arr.length) q hpos').1 h
          refine ⟨j + 1, by omega, ?_, ?_, hend⟩
          · rw [hq, Nat.mod_add_mod]
            congr 1
            omega
          · intro i hi
            cases i with
            | zero => exact ⟨kv, by simpa [hposmod] using harr, hk⟩
            | succ i' =>
              obtain ⟨kv', h1, h2⟩ := hsc i' (by omega)
              refine ⟨kv', ?_, h2⟩
              rw [Nat.mod_add_mod] at h1
              have harith : pos + 1 + i' = pos + (i' + 1) := by omega
              rwa [harith] at h1
    · rintro ⟨j, hj, hq, hsc, hend⟩
      cases harr : arr.getD pos none with
      | none =>
        have hj0 : j = 0 := by
          by_contra hne
          obtain ⟨kv, h1, _⟩ := hsc 0 (by omega)
          rw [Nat.add_zero, hposmod, harr] at h1
          exact Option.noConfusion h1
        subst hj0
        rw [Nat.add_zero, hposmod] at hq
        subst hq
        rcases hend with ⟨_, hins⟩ | ⟨kv, hkv, _⟩
        · subst hins
          simp only [probeAux, harr, if_pos]
        · rw [harr] at hkv; exact Option.noConfusion hkv
      | some kv =>
        by_cases hk : kv.1 = k
        · have hj0 : j = 0 := by
            by_contra hne
            obtain ⟨kv', h1, h2⟩ := hsc 0 (by omega)
            rw [Nat.add_zero, hposmod, harr] at h1
            cases h1
            exact h2 hk
          subst hj0
          rw [Nat.add_zero, hposmod] at hq
          subst hq
          simp only [probeAux, harr, if_pos hk]
        · cases j with
          | zero =>
            rw [Nat.add_zero, hposmod] at hq
            subst hq
            rcases hend with ⟨hnone, _⟩ | ⟨kv', hkv, h2⟩
            · rw [harr] at hnone; exact Option.noConfusion hnone
            · rw [harr] at hkv; cases hkv; exact absurd h2 hk
          | succ j' =>
            have hpos' : (pos + 1) % arr.length < arr.length := Nat.mod_lt _ hlen
            simp only [probeAux, harr, if_neg hk]
            refine (ih ((pos + 1) % arr.length) q hpos').2 ⟨j', by omega, ?_, ?_, hend⟩
            · rw [hq, Nat.mod_add_mod]
              have harith : pos + 1 + j' = pos + (j' + 1) := by omega
              rw [harith]
            · intro i hi
              obtain ⟨kv', h1, h2⟩ := hsc (i + 1) (by omega)
              refine ⟨kv', ?_, h2⟩
              rw [Nat.mod_add_mod]
              have harith : pos + 1 + i = pos + (i + 1) := by omega
              rw [harith]
              exact h1

theorem probeAux_ok_lt {K V : Type} [DecidableEq K]
    {arr : List (Option (K × V))} {k : K} {ins : Bool} {fuel pos q : Nat}
    (hpos : pos < arr.length) (h : probeAux arr k ins pos fuel = .ok q) :
    q < arr.length := by
  obtain ⟨j, _, hq, _, _⟩ := (probeAux_ok_iff arr k ins fuel pos q hpos).1 h
  rw [hq]
  exact Nat.mod_lt _ (Nat.lt_of_le_of_lt (Nat.zero_le _) hpos)

theorem probeAux_ok_end {K V : Type} [DecidableEq K]
    {arr : List (Option (K × V))} {k : K} {ins : Bool} {fuel pos q : Nat}
    (hpos : pos < arr.length) (h : probeAux arr k ins pos fuel = .ok q) :
    probeEnd arr k ins q := by
  obtain ⟨j, _, _, _, hend⟩ := (probeAux_ok_iff arr k ins fuel pos q hpos).1 h
  exact hend

theorem probeAux_false_error {K V : Type} [DecidableEq K]
    (arr : List (Option (K × V))) (k : K) :
    ∀ (fuel pos : Nat) (e : TErr),
    probeAux arr k false pos fuel = .error e → e = .keyNotFound := by
  intro fuel
  induction fuel with
  | zero => intro pos e h; simpa [probeAux] using h.symm
  | succ fuel ih =>
    intro pos e h
    cases harr : arr.getD pos none with
    | none =>
      simp only [probeAux, harr] at h
      simpa using h.symm
    | some kv =>
      simp only [probeAux, harr] at h
      by_cases hk : kv.1 = k
      · rw [if_pos hk] at h; exact Except.noConfusion h
      · rw [if_neg hk] at h; exact ih _ _ h

/-! ## The table invariant and its preservation by inserts -/

/-- Well-formedness of an open-addressed table under hash `h`: capacity at
least two, a sane capacity ladder, an exact count, and the §3 reachability
invariant — every occupied slot is found by the probe scan started at its
key's hash position. -/
structure LPTGood {K V : Type} [DecidableEq K] (h : K → Nat → Nat)
    (t : LPT K V) : Prop where
  capTwo : 2 ≤ t.array.length
  sizesOk : ∀ s ∈ t.sizes, 2 ≤ s
  countEq : t.count = countOcc t.array
  reach : ∀ p kv, t.array.getD p none = some kv →
    probeAux t.array kv.1 false (h kv.1 t.array.length) t.array.length = .ok p

/-- A hash family producing in-range start positions (satisfied by
`rollingHash`). -/
def HashBounded {K : Type} (h : K → Nat → Nat) : Prop :=
  ∀ (k : K) (c : Nat), 0 < c → h k c < c

theorem rollingHash_bounded : HashBounded rollingHash := by
  intro k c hc
  show (k.foldl _ (0, 31415)).1 < c
  have hgen : ∀ (l : Key) (p : Nat × Nat), p.1 < c →
      (l.foldl (fun p c2 => ((c2 + p.2 * p.1) % c, p.2 * 31 % (c - 1))) p).1 < c := by
    intro l
    induction l with
    | nil => intro p hp; exact hp
    | cons a rest ih =>
      intro p hp
      exact ih _ (Nat.mod_lt _ hc)
  exact hgen k (0, 31415) hc

theorem lptGet_error_form {K V : Type} [DecidableEq K] {h : K → Nat → Nat}
    {t : LPT K V} {k : K} {e : TErr} (hg : lptGet h t k = .error e) :
    e = .keyNotFound := by
  unfold lptGet at hg
  cases hp : lptProbe h t k false with
  | error e' =>
    simp only [hp] at hg
    cases hg
    exact probeAux_false_error t.array k _ _ e hp
  | ok pos =>
    simp only [hp] at hg
    cases harr : t.array.getD pos none with
    | none =>
      simp only [harr] at hg
      injection hg with h1
      exact h1.symm
    | some kv =>
      simp only [harr] at hg
      exact Except.noConfusion hg

theorem replicate_getD_none {K V : Type} (n p : Nat) :
    (List.replicate n (none : Option (K × V))).getD p none = none := by
  by_cases hp : p < n
  · exact getD_replicate_lt n p none none hp
  · exact getD_ge_length _ p none (by simpa using Nat.le_of_not_lt hp)

theorem getD_mem_of_lt {α : Type} (l : List α) (i : Nat) (d : α)
    (hi : i < l.length) : l.getD i d ∈ l := by
  induction l generalizing i with
  | nil => simp at hi
  | cons a rest ih =>
    cases i with
    | zero => simp [List.getD]
    | succ j =>
      simp only [List.getD_cons_succ]
      exact List.mem_cons_of_mem a (ih j (by simpa using hi))

/-- Setting an empty slot does not disturb any successful lookup probe. -/
theorem probe_false_ok_set_fresh {K V : Type} [DecidableEq K]
    {arr : List (Option (K × V))} {p : Nat} {x : Option (K × V)} {k : K}
    {fuel pos q : Nat} (hpos : pos < arr.length)
    (hp : arr.getD p none = none)
    (hq : probeAux arr k false pos fuel = .ok q) :
    probeAux (arr.set p x) k false pos fuel = .ok q := by
  have hlen : (arr.set p x).length = arr.length := List.length_set arr p x
  obtain ⟨j, hj, hqe, hsc, hend⟩ := (probeAux_ok_iff arr k false fuel pos q hpos).1 hq
  have hqn : arr.getD q none ≠ none := by
    rcases hend with ⟨_, hcon⟩ | ⟨kv, hkv, _⟩
    · exact Bool.noConfusion hcon
    · rw [hkv]; exact fun hc => Option.noConfusion hc
  have hqp : q ≠ p := fun he => hqn (he ▸ hp)
  refine (probeAux_ok_iff (arr.set p x) k false fuel pos q (by rwa [hlen])).2
    ⟨j, hj, by rwa [hlen], ?_, ?_⟩
  · intro i hi
    obtain ⟨kv, h1, h2⟩ := hsc i hi
    have hip : (pos + i) % arr.length ≠ p := by
      intro he
      rw [he, hp] at h1
      exact Option.noConfusion h1
    exact ⟨kv, by rwa [hlen, getD_set_other arr p _ x none (fun he => hip he.symm)], h2⟩
  · rcases hend with ⟨hcon, _⟩ | ⟨kv, hkv, h2⟩
    · exact absurd hcon hqn
    · exact Or.inr ⟨kv, by rwa [getD_set_other arr p q x none (fun he => hqp he.symm)], h2⟩

/-- Overwriting a slot with the same key (any value) does not disturb any
successful lookup probe. -/
theorem probe_false_ok_set_same_key {K V : Type} [DecidableEq K]
    {arr : List (Option (K × V))} {p : Nat} {kp : K} {w w' : V} {k : K}
    {fuel pos q : Nat} (hpos : pos < arr.length)
    (hp : arr.getD p none = some (kp, w))
    (hq : probeAux arr k false pos fuel = .ok q) :
    probeAux (arr.set p (some (kp, w'))) k false pos fuel = .ok q := by
  have hlen : (arr.set p (some (kp, w'))).length = arr.length :=
    List.length_set arr p _
  have hplt : p < arr.length := by
    by_contra hge
    rw [getD_ge_length arr p none (Nat.le_of_not_lt hge)] at hp
    exact Option.noConfusion hp
  obtain ⟨j, hj, hqe, hsc, hend⟩ := (probeAux_ok_iff arr k false fuel pos q hpos).1 hq
  refine (probeAux_ok_iff _ k false fuel pos q (by rwa [hlen])).2
    ⟨j, hj, by rwa [hlen], ?_, ?_⟩
  · intro i hi
    obtain ⟨kv, h1, h2⟩ := hsc i hi
    by_cases hip : (pos + i) % arr.length = p
    · rw [hip, hp] at h1
      cases h1
      refine ⟨(kp, w'), ?_, h2⟩
      rw [hlen, hip]
      exact getD_set_self arr p _ none hplt
    · exact ⟨kv, by rwa [hlen, getD_set_other arr p _ _ none (fun he => hip he.symm)], h2⟩
  · rcases hend with ⟨hnone, hcon⟩ | ⟨kv, hkv, h2⟩
    · exact Bool.noConfusion hcon
    · by_cases hqp : q = p
      · rw [hqp, hp] at hkv
        cases hkv
        exact Or.inr ⟨(kp, w'), by rw [hqp]; exact getD_set_self arr p _ none hplt, h2⟩
      · exact Or.inr ⟨kv, by rwa [getD_set_other arr p q _ none (fun he => hqp he.symm)], h2⟩

/-- After storing a new key at the empty slot its insert probe found, the
key's lookup probe finds that slot. -/
theorem probe_false_ok_new_key {K V : Type} [DecidableEq K]
    {arr : List (Option (K × V))} {p : Nat} {k : K} {v : V}
    {fuel pos : Nat} (hpos : pos < arr.length)
    (ht : probeAux arr k true pos fuel = .ok p)
    (hp : arr.getD p none = none) :
    probeAux (arr.set p (some (k, v))) k false pos fuel = .ok p := by
  have hlen : (arr.set p (some (k, v))).length = arr.length := List.length_set arr p _
  have hplt : p < arr.length := probeAux_ok_lt hpos ht
  obtain ⟨j, hj, hqe, hsc, _⟩ := (probeAux_ok_iff arr k true fuel pos p hpos).1 ht
  refine (probeAux_ok_iff _ k false fuel pos p (by rwa [hlen])).2
    ⟨j, hj, by rwa [hlen], ?_, ?_⟩
  · intro i hi
    obtain ⟨kv, h1, h2⟩ := hsc i hi
    have hip : (pos + i) % arr.length ≠ p := by
      intro he
      rw [he, hp] at h1
      exact Option.noConfusion h1
    exact ⟨kv, by rwa [hlen, getD_set_other arr p _ _ none (fun he => hip he.symm)], h2⟩
  · exact Or.inr ⟨(k, v), getD_set_self arr p _ none hplt, rfl⟩

/-- If an insert probe ends on an empty slot, the key is stored nowhere (in a
table satisfying the reachability invariant). -/
theorem key_absent_of_probe_true_empty {K V : Type} [DecidableEq K]
    {h : K → Nat → Nat} {t : LPT K V} {k : K} {p : Nat}
    (hGood : LPTGood h t)
    (hstart : h k t.array.length < t.array.length)
    (ht : probeAux t.array k true (h k t.array.length) t.array.length = .ok p)
    (hp : t.array.getD p none = none) :
    ∀ q kv, t.array.getD q none = some kv → kv.1 ≠ k := by
  intro q kv hq hk
  have hreach := hGood.reach q kv hq
  rw [hk] at hreach
  obtain ⟨j, hj, hqe, hsc, _⟩ :=
    (probeAux_ok_iff t.array k true _ _ p hstart).1 ht
  obtain ⟨j', hj', hqe', hsc', _⟩ :=
    (probeAux_ok_iff t.array k false _ _ q hstart).1 hreach
  rcases Nat.lt_trichotomy j j' with hlt | heq | hgt
  · obtain ⟨kv2, h1, _⟩ := hsc' j hlt
    rw [← hqe, hp] at h1
    exact Option.noConfusion h1
  · subst heq
    have hpq : q = p := by rw [hqe', hqe]
    rw [hpq, hp] at hq
    exact Option.noConfusion hq
  · obtain ⟨kv2, h1, h2⟩ := hsc j' hgt
    rw [← hqe', hq] at h1
    cases h1
    exact h2 hk

theorem exceptV_eq {α : Type} (a b : Except TErr α)
    (hok : ∀ w, a = .ok w ↔ b = .ok w)
    (ha : ∀ e, a = .error e → e = .keyNotFound)
    (hb : ∀ e, b = .error e → e = .keyNotFound) : a = b := by
  cases a with
  | ok w => exact ((hok w).1 rfl).symm
  | error e =>
    cases b with
    | ok w => exact absurd ((hok w).2 rfl) (by intro hc; exact Except.noConfusion hc)
    | error e' => rw [ha e rfl, hb e' rfl]

theorem lptGet_ok_iff {K V : Type} [DecidableEq K] {h : K → Nat → Nat}
    {t : LPT K V} (hh : HashBounded h) (hGood : LPTGood h t) (k : K) (v : V) :
    lptGet h t k = .ok v ↔ ∃ p, t.array.getD p none = some (k, v) := by
  have hlen0 : 0 < t.array.length := lt_of_lt_of_le (by norm_num) hGood.capTwo
  have hstart : h k t.array.length < t.array.length := hh k _ hlen0
  constructor
  · intro hg
    unfold lptGet at hg
    cases hp : lptProbe h t k false with
    | error e =>
      simp only [hp] at hg
      exact Except.noConfusion hg
    | ok pos =>
      simp only [hp] at hg
      cases harr : t.array.getD pos none with
      | none =>
        simp only [harr] at hg
        exact Except.noConfusion hg
      | some kv =>
        simp only [harr] at hg
        injection hg with h2
        have hend := probeAux_ok_end hstart hp
        rcases hend with ⟨hnone, hcon⟩ | ⟨kv', hkv', hk'⟩
        · rw [harr] at hnone; exact Option.noConfusion hnone
        · rw [harr] at hkv'
          cases hkv'
          refine ⟨pos, ?_⟩
          rw [harr, ← hk', ← h2]
  · rintro ⟨p, hp⟩
    have hreach := hGood.reach p (k, v) hp
    unfold lptGet lptProbe
    simp only [hreach, hp]

theorem lptGet_isOk_iff {K V : Type} [DecidableEq K] {h : K → Nat → Nat}
    {t : LPT K V} (hh : HashBounded h) (hGood : LPTGood h t) (k : K) :
    (lptGet h t k).isOk = true ↔ ∃ p kv, t.array.getD p none = some kv ∧ kv.1 = k := by
  constructor
  · intro hg
    cases hgv : lptGet h t k with
    | error e => rw [hgv] at hg; simp [Except.isOk, Except.toBool] at hg
    | ok w =>
      obtain ⟨p, hp⟩ := (lptGet_ok_iff hh hGood k w).1 hgv
      exact ⟨p, (k, w), hp, rfl⟩
  · rintro ⟨p, kv, hp, hk⟩
    have : lptGet h t k = .ok kv.2 := by
      refine (lptGet_ok_iff hh hGood k kv.2).2 ⟨p, ?_⟩
      rw [hp, ← hk]
    rw [this]
    rfl

theorem slot_unique {K V : Type} [DecidableEq K] {h : K → Nat → Nat}
    {t : LPT K V} (hGood : LPTGood h t) {p q : Nat} {kvp kvq : K × V}
    (hp : t.array.getD p none = some kvp) (hq : t.array.getD q none = some kvq)
    (hk : kvp.1 = kvq.1) : p = q := by
  have h1 := hGood.reach p kvp hp
  have h2 := hGood.reach q kvq hq
  rw [hk] at h1
  rw [h1] at h2
  exact (Except.ok.inj h2)

theorem entries_keys_nodup_aux {K V : Type}
    (arr : List (Option (K × V)))
    (huniq : ∀ p q kvp kvq, arr.getD p none = some kvp →
      arr.getD q none = some kvq → kvp.1 = kvq.1 → p = q) :
    ((entriesOf arr).map Prod.fst).Nodup := by
  induction arr with
  | nil => simp [entriesOf]
  | cons c rest ih =>
    have hrest : ∀ p q kvp kvq, rest.getD p none = some kvp →
        rest.getD q none = some kvq → kvp.1 = kvq.1 → p = q := by
      intro p q kvp kvq hp hq hk
      have := huniq (p + 1) (q + 1) kvp kvq (by simpa using hp) (by simpa using hq) hk
      omega
    cases c with
    | none =>
      show ((entriesOf rest).map Prod.fst).Nodup
      exact ih hrest
    | some kv =>
      show (kv.1 :: (entriesOf rest).map Prod.fst).Nodup
      refine List.Nodup.cons ?_ (ih hrest)
      intro hmem
      obtain ⟨b, hb, hfst⟩ := List.mem_map.1 hmem
      obtain ⟨p, hp⟩ := (mem_entriesOf rest b).1 hb
      have := huniq 0 (p + 1) kv b (by simp) (by simpa using hp) hfst.symm
      omega

theorem lptGood_keys_nodup {K V : Type} [DecidableEq K] {h : K → Nat → Nat}
    {t : LPT K V} (hGood : LPTGood h t) :
    ((entriesOf t.array).map Prod.fst).Nodup :=
  entries_keys_nodup_aux t.array (fun _ _ _ _ hp hq hk => slot_unique hGood hp hq hk)

/-- The outcome of one successful insert: invariant preserved, the key reads
back, every other key is untouched, the occupancy grew exactly when the key
was new, and the capacity ladder is unchanged. -/
def SetOutcome {K V : Type} [DecidableEq K] (h : K → Nat → Nat)
    (t t' : LPT K V) (k : K) (v : V) : Prop :=
  LPTGood h t' ∧ lptGet h t' k = .ok v ∧
  (∀ k2, k2 ≠ k → lptGet h t' k2 = lptGet h t k2) ∧
  countOcc t'.array = countOcc t.array +
    (if (lptGet h t k).isOk then 0 else 1) ∧
  t'.sizes = t.sizes

theorem lptStoreAt_good {K V : Type} [DecidableEq K] {h : K → Nat → Nat}
    (hh : HashBounded h) {t : LPT K V} {k : K} {v : V} {pos : Nat}
    (hGood : LPTGood h t) (hprobe : lptProbe h t k true = .ok pos) :
    LPTGood h (lptStoreAt t pos k v) := by
  have hlen0 : 0 < t.array.length := lt_of_lt_of_le (by norm_num) hGood.capTwo
  have hstart : h k t.array.length < t.array.length := hh k _ hlen0
  have hposlt : pos < t.array.length := probeAux_ok_lt hstart hprobe
  have hend := probeAux_ok_end hstart hprobe
  have hlen' : (lptStoreAt t pos k v).array.length = t.array.length :=
    List.length_set t.array pos _
  have harr' : (lptStoreAt t pos k v).array = t.array.set pos (some (k, v)) := rfl
  rcases hend with ⟨hpe, _⟩ | ⟨kv0, hkv0, hk0⟩
  · refine ⟨by rw [hlen']; exact hGood.capTwo, hGood.sizesOk, ?_, ?_⟩
    · show t.count + _ = countOcc (t.array.set pos (some (k, v)))
      rw [countOcc_set_some_of_none t.array pos (k, v) hposlt hpe, hGood.countEq,
        hpe]
      rfl
    · intro p2 kv2 hp2
      rw [harr'] at hp2
      by_cases hpp : p2 = pos
      · subst hpp
        rw [getD_set_self t.array p2 _ none hposlt] at hp2
        cases hp2
        rw [harr', List.length_set]
        exact probe_false_ok_new_key hstart hprobe hpe
      · rw [getD_set_other t.array pos p2 _ none (fun he => hpp he.symm)] at hp2
        have hold := hGood.reach p2 kv2 hp2
        rw [harr', List.length_set]
        exact probe_false_ok_set_fresh (hh kv2.1 _ hlen0) hpe hold
  · have hkv0' : t.array.getD pos none = some (k, kv0.2) := by
      rw [← hk0]
      exact hkv0
    refine ⟨by rw [hlen']; exact hGood.capTwo, hGood.sizesOk, ?_, ?_⟩
    · show t.count + _ = countOcc (t.array.set pos (some (k, v)))
      rw [countOcc_set_some_of_some t.array pos (k, v) (k, kv0.2) hkv0',
        hGood.countEq, hkv0']
      rfl
    · intro p2 kv2 hp2
      rw [harr'] at hp2
      by_cases hpp : p2 = pos
      · subst hpp
        rw [getD_set_self t.array p2 _ none hposlt] at hp2
        cases hp2
        rw [harr', List.length_set]
        exact probe_false_ok_set_same_key hstart hkv0'
          (hGood.reach p2 (k, kv0.2) hkv0')
      · rw [getD_set_other t.array pos p2 _ none (fun he => hpp he.symm)] at hp2
        have hold := hGood.reach p2 kv2 hp2
        rw [harr', List.length_set]
        exact probe_false_ok_set_same_key (hh kv2.1 _ hlen0) hkv0' hold

theorem lptStoreAt_outcome {K V : Type} [DecidableEq K] {h : K → Nat → Nat}
    (hh : HashBounded h) {t : LPT K V} {k : K} {v : V} {pos : Nat}
    (hGood : LPTGood h t) (hprobe : lptProbe h t k true = .ok pos) :
    SetOutcome h t (lptStoreAt t pos k v) k v ∧
    (lptStoreAt t pos k v).array.length = t.array.length := by
  have hlen0 : 0 < t.array.length := lt_of_lt_of_le (by norm_num) hGood.capTwo
  have hstart : h k t.array.length < t.array.length := hh k _ hlen0
  have hposlt : pos < t.array.length := probeAux_ok_lt hstart hprobe
  have hend := probeAux_ok_end hstart hprobe
  have hlen' : (lptStoreAt t pos k v).array.length = t.array.length :=
    List.length_set t.array pos _
  have harr' : (lptStoreAt t pos k v).array = t.array.set pos (some (k, v)) := rfl
  have hGood' : LPTGood h (lptStoreAt t pos k v) := lptStoreAt_good hh hGood hprobe
  have hgetk : lptGet h (lptStoreAt t pos k v) k = .ok v := by
    refine (lptGet_ok_iff hh hGood' k v).2 ⟨pos, ?_⟩
    rw [harr']
    exact getD_set_self t.array pos _ none hposlt
  refine ⟨⟨hGood', hgetk, ?frame, ?cnt, rfl⟩, hlen'⟩
  case frame =>
    intro k2 hk2
    refine exceptV_eq _ _ ?_ (fun e he => lptGet_error_form he)
      (fun e he => lptGet_error_form he)
    intro w
    rw [lptGet_ok_iff hh hGood' k2 w, lptGet_ok_iff hh hGood k2 w]
    constructor
    · rintro ⟨p, hp⟩
      rw [harr'] at hp
      by_cases hpp : p = pos
      · subst hpp
        rw [getD_set_self t.array p _ none hposlt] at hp
        cases hp
        exact absurd rfl hk2
      · rw [getD_set_other t.array pos p _ none (fun he => hpp he.symm)] at hp
        exact ⟨p, hp⟩
    · rintro ⟨p, hp⟩
      have hpp : p ≠ pos := by
        intro he
        subst he
        rcases hend with ⟨hpe, _⟩ | ⟨kv0, hkv0, hk0⟩
        · rw [hpe] at hp; exact Option.noConfusion hp
        · rw [hkv0] at hp
          cases hp
          exact hk2 hk0
      refine ⟨p, ?_⟩
      rw [harr', getD_set_other t.array pos p _ none (fun he => hpp he.symm)]
      exact hp
  case cnt =>
    rcases hend with ⟨hpe, _⟩ | ⟨kv0, hkv0, hk0⟩
    · have habsent := key_absent_of_probe_true_empty hGood hstart hprobe hpe
      have hnotok : (lptGet h t k).isOk = false := by
        by_contra hcon
        have : (lptGet h t k).isOk = true := by
          cases hb : (lptGet h t k).isOk
          · exact absurd hb hcon
          · rfl
        obtain ⟨p, kv, hp, hk⟩ := (lptGet_isOk_iff hh hGood k).1 this
        exact habsent p kv hp hk
      rw [harr', countOcc_set_some_of_none t.array pos (k, v) hposlt hpe, hnotok]
      simp
    · have hok : (lptGet h t k).isOk = true := by
        refine (lptGet_isOk_iff hh hGood k).2 ⟨pos, kv0, hkv0, hk0⟩
      rw [harr', countOcc_set_some_of_some t.array pos (k, v) kv0 hkv0, hok]
      simp

/-- The loop body of a resize's reinsertion pass, named for the proofs. -/
def reinsertStep {K V : Type}
    (ins : LPT K V → K → V → Except TErr (LPT K V)) :
    Except TErr (LPT K V) → Option (K × V) → Except TErr (LPT K V) :=
  fun a cell =>
    match a, cell with
    | .error e, _ => .error e
    | .ok a, none => .ok a
    | .ok a, some kv => ins a kv.1 kv.2

theorem reinsertStep_ok_none {K V : Type}
    (ins : LPT K V → K → V → Except TErr (LPT K V)) (a : LPT K V) :
    reinsertStep ins (.ok a) none = .ok a := rfl

theorem reinsertStep_ok_some {K V : Type}
    (ins : LPT K V → K → V → Except TErr (LPT K V)) (a : LPT K V)
    (kv : K × V) : reinsertStep ins (.ok a) (some kv) = ins a kv.1 kv.2 := rfl

theorem reinsertStep_error {K V : Type}
    (ins : LPT K V → K → V → Except TErr (LPT K V)) (e : TErr)
    (cell : Option (K × V)) :
    reinsertStep ins (.error e) cell = .error e := by
  cases cell <;> rfl

theorem reinsert_fold_error {K V : Type}
    (ins : LPT K V → K → V → Except TErr (LPT K V)) (e : TErr) :
    ∀ cells : List (Option (K × V)),
    (cells.foldl (reinsertStep ins) (.error e)) = .error e := by
  intro cells
  induction cells with
  | nil => rfl
  | cons c rest ih =>
    simp only [List.foldl_cons, reinsertStep_error]
    exact ih

theorem reinsert_fold_outcome {K V : Type} [DecidableEq K] {h : K → Nat → Nat}
    (hh : HashBounded h)
    (ins : LPT K V → K → V → Except TErr (LPT K V))
    (hins : ∀ (t : LPT K V) (k : K) (v : V) (t' : LPT K V),
      LPTGood h t → ins t k v = .ok t' → SetOutcome h t t' k v) :
    ∀ (cells : List (Option (K × V))) (acc : LPT K V) (P : List (K × V))
      (final : LPT K V),
    LPTGood h acc →
    (∀ k2 v, lptGet h acc k2 = .ok v ↔ (k2, v) ∈ P) →
    countOcc acc.array = P.length →
    ((P ++ entriesOf cells).map Prod.fst).Nodup →
    (cells.foldl (reinsertStep ins) (.ok acc)) = .ok final →
    LPTGood h final ∧
    (∀ k2 v, lptGet h final k2 = .ok v ↔ (k2, v) ∈ P ++ entriesOf cells) ∧
    countOcc final.array = (P ++ entriesOf cells).length ∧
    final.sizes = acc.sizes := by
  intro cells
  induction cells with
  | nil =>
    intro acc P final hGood hiff hcnt _hnd hfold
    cases hfold
    exact ⟨hGood, by simpa [entriesOf] using hiff, by simpa [entriesOf] using hcnt,
      rfl⟩
  | cons c rest ih =>
    intro acc P final hGood hiff hcnt hnd hfold
    cases c with
    | none =>
      simp only [List.foldl_cons, reinsertStep_ok_none] at hfold
      have hent : entriesOf (none :: rest) = entriesOf rest := rfl
      rw [hent] at hnd ⊢
      exact ih acc P final hGood hiff hcnt hnd hfold
    | some kv =>
      simp only [List.foldl_cons, reinsertStep_ok_some] at hfold
      have hent : entriesOf (some kv :: rest) = kv :: entriesOf rest := rfl
      rw [hent] at hnd
      cases hstep : ins acc kv.1 kv.2 with
      | error e =>
        rw [hstep] at hfold
        rw [reinsert_fold_error ins e rest] at hfold
        exact Except.noConfusion hfold
      | ok acc' =>
        rw [hstep] at hfold
        obtain ⟨hGood', hgetk, hframe, hcnt', _hsz'⟩ := hins acc kv.1 kv.2 acc' hGood hstep
        have hfresh : ∀ w, (kv.1, w) ∉ P := by
          intro w hmem
          have h1 : kv.1 ∈ P.map Prod.fst := List.mem_map.2 ⟨(kv.1, w), hmem, rfl⟩
          have h2 : kv.1 ∈ (kv :: entriesOf rest).map Prod.fst := by simp
          have hd := (List.nodup_append.1 (by simpa using hnd)).2.2
          exact hd h1 h2
        have hiff' : ∀ k2 v, lptGet h acc' k2 = .ok v ↔ (k2, v) ∈ P ++ [kv] := by
          intro k2 v
          by_cases hk2 : k2 = kv.1
          · subst hk2
            rw [hgetk]
            constructor
            · intro hv
              injection hv with hv
              subst hv
              simp
            · intro hmem
              rcases List.mem_append.1 hmem with hmem | hmem
              · exact absurd hmem (hfresh v)
              · simp only [List.mem_singleton] at hmem
                rw [← hmem]
            
          · rw [hframe k2 hk2, hiff k2 v]
            constructor
            · intro hmem
              exact List.mem_append.2 (Or.inl hmem)
            · intro hmem
              rcases List.mem_append.1 hmem with hmem | hmem
              · exact hmem
              · simp only [List.mem_singleton] at hmem
                cases hmem
                exact absurd rfl hk2
        have hnotok : (lptGet h acc kv.1).isOk = false := by
          cases hb : (lptGet h acc kv.1) with
          | error e => rfl
          | ok w =>
            have := (hiff kv.1 w).1 hb
            exact absurd this (hfresh w)
        have hcnt2 : countOcc acc'.array = (P ++ [kv]).length := by
          rw [hcnt', hnotok, hcnt]
          simp
        have hnd' : (((P ++ [kv]) ++ entriesOf rest).map Prod.fst).Nodup := by
          have : (P ++ [kv]) ++ entriesOf rest = P ++ kv :: entriesOf rest := by
            simp
          rw [this]
          exact hnd
        obtain ⟨hg, hi, hc, hs⟩ := ih acc' (P ++ [kv]) final hGood' hiff' hcnt2 hnd' hfold
        have happ : (P ++ [kv]) ++ entriesOf rest = P ++ entriesOf (some kv :: rest) := by
          rw [hent]
          simp
        refine ⟨hg, ?_, ?_, by rw [hs, _hsz']⟩
        · intro k2 v
          rw [hi k2 v, happ]
        · rw [hc, happ]

/-- The outcome of a successful resize: invariant preserved and every lookup
unchanged. -/
def RehashOutcome {K V : Type} [DecidableEq K] (h : K → Nat → Nat)
    (t t' : LPT K V) : Prop :=
  LPTGood h t' ∧ (∀ k2, lptGet h t' k2 = lptGet h t k2) ∧
  countOcc t'.array = countOcc t.array ∧ t'.sizes = t.sizes

theorem lptRehashCore_outcome {K V : Type} [DecidableEq K] {h : K → Nat → Nat}
    (hh : HashBounded h)
    (ins : LPT K V → K → V → Except TErr (LPT K V))
    (hins : ∀ (t : LPT K V) (k : K) (v : V) (t' : LPT K V),
      LPTGood h t → ins t k v = .ok t' → SetOutcome h t t' k v)
    (t t' : LPT K V) (hGood : LPTGood h t)
    (hrun : lptRehashCore ins t = .ok t') : RehashOutcome h t t' := by
  unfold lptRehashCore at hrun
  by_cases hceil : t.sizes.length ≤ t.sizeIndex + 1
  · rw [if_pos hceil] at hrun
    cases hrun
    exact ⟨hGood, fun _ => rfl, rfl, rfl⟩
  · rw [if_neg hceil] at hrun
    simp only [] at hrun
    set t0 : LPT K V := ⟨t.sizes, t.sizeIndex + 1, List.replicate (t.sizes.getD (t.sizeIndex + 1) 0) none, 0⟩ with ht0
    have hcap2 : 2 ≤ t.sizes.getD (t.sizeIndex + 1) 0 := by
      have hlt : t.sizeIndex + 1 < t.sizes.length := Nat.lt_of_not_le hceil
      exact hGood.sizesOk _ (getD_mem_of_lt t.sizes (t.sizeIndex + 1) 0 hlt)
    have hGood0 : LPTGood h t0 := by
      refine ⟨?_, hGood.sizesOk, ?_, ?_⟩
      · show 2 ≤ (List.replicate (t.sizes.getD (t.sizeIndex + 1) 0)
          (none : Option (K × V))).length
        rw [List.length_replicate]
        exact hcap2
      · show 0 = countOcc (List.replicate _ none)
        rw [countOcc_replicate]
      · intro p kv hp
        rw [show t0.array = List.replicate (t.sizes.getD (t.sizeIndex + 1) 0)
          (none : Option (K × V)) from rfl, replicate_getD_none] at hp
        exact Option.noConfusion hp
    have hiff0 : ∀ k2 v, lptGet h t0 k2 = .ok v ↔ (k2, v) ∈ ([] : List (K × V)) := by
      intro k2 v
      constructor
      · intro hg
        obtain ⟨p, hp⟩ := (lptGet_ok_iff hh hGood0 k2 v).1 hg
        rw [show t0.array = List.replicate (t.sizes.getD (t.sizeIndex + 1) 0)
          (none : Option (K × V)) from rfl, replicate_getD_none] at hp
        exact Option.noConfusion hp
      · intro hmem
        exact absurd hmem (List.not_mem_nil _)
    have hrun2 : t.array.foldl (reinsertStep ins) (.ok t0) = .ok t' := hrun
    obtain ⟨hg, hi, hc, hs⟩ := reinsert_fold_outcome hh ins hins t.array t0 [] t'
      hGood0 hiff0 (by rw [countOcc_replicate]; rfl)
      (by simpa using lptGood_keys_nodup hGood) hrun2
    refine ⟨hg, ?_, ?_, hs⟩
    · intro k2
      refine exceptV_eq _ _ ?_ (fun e he => lptGet_error_form he)
        (fun e he => lptGet_error_form he)
      intro w
      rw [hi k2 w, lptGet_ok_iff hh hGood k2 w]
      simp only [List.nil_append]
      exact (mem_entriesOf t.array (k2, w))
    · rw [hc]
      simp only [List.nil_append]
      exact entriesOf_length t.array

theorem SetOutcome_comp {K V : Type} [DecidableEq K] {h : K → Nat → Nat}
    {t t1 t' : LPT K V} {k : K} {v : V}
    (h1 : SetOutcome h t t1 k v) (h2 : RehashOutcome h t1 t') :
    SetOutcome h t t' k v := by
  obtain ⟨hg1, hget1, hfr1, hc1, hs1⟩ := h1
  obtain ⟨hg2, hget2, hc2, hs2⟩ := h2
  refine ⟨hg2, ?_, ?_, ?_, by rw [hs2, hs1]⟩
  · rw [hget2 k, hget1]
  · intro k2 hk2
    rw [hget2 k2, hfr1 k2 hk2]
  · rw [hc2, hc1]

theorem lptSetFuel_outcome {K V : Type} [DecidableEq K] {h : K → Nat → Nat}
    (hh : HashBounded h) :
    ∀ (fuel : Nat) (t : LPT K V) (k : K) (v : V) (t' : LPT K V),
    LPTGood h t → lptSetFuel h fuel t k v = .ok t' → SetOutcome h t t' k v := by
  intro fuel
  induction fuel with
  | zero =>
    intro t k v t' hGood hset
    rw [lptSetFuel] at hset
    cases hp : lptProbe h t k true with
    | error e =>
      rw [hp] at hset
      exact Except.noConfusion hset
    | ok pos =>
      simp only [hp] at hset
      by_cases hload :
          2 * (lptStoreAt t pos k v).count > (lptStoreAt t pos k v).array.length
      · rw [if_pos hload] at hset
        cases hset
        exact (lptStoreAt_outcome hh hGood hp).1
      · rw [if_neg hload] at hset
        cases hset
        exact (lptStoreAt_outcome hh hGood hp).1
  | succ fuel ih =>
    intro t k v t' hGood hset
    rw [lptSetFuel] at hset
    cases hp : lptProbe h t k true with
    | error e =>
      rw [hp] at hset
      exact Except.noConfusion hset
    | ok pos =>
      simp only [hp] at hset
      by_cases hload :
          2 * (lptStoreAt t pos k v).count > (lptStoreAt t pos k v).array.length
      · rw [if_pos hload] at hset
        obtain ⟨hout1, _⟩ := lptStoreAt_outcome (v := v) hh hGood hp
        have hout2 := lptRehashCore_outcome hh
          (fun a b c => lptSetFuel h fuel a b c)
          (fun t2 k2 v2 t2' hg2 hs2 => ih t2 k2 v2 t2' hg2 hs2)
          (lptStoreAt t pos k v) t' hout1.1 hset
        exact SetOutcome_comp hout1 hout2
      · rw [if_neg hload] at hset
        cases hset
        exact (lptStoreAt_outcome hh hGood hp).1

theorem lptSet_outcome {K V : Type} [DecidableEq K] {h : K → Nat → Nat}
    (hh : HashBounded h) {t t' : LPT K V} {k : K} {v : V}
    (hGood : LPTGood h t) (hset : lptSet h t k v = .ok t') :
    SetOutcome h t t' k v :=
  lptSetFuel_outcome hh _ t k v t' hGood hset

theorem lptRehash_outcome {K V : Type} [DecidableEq K] {h : K → Nat → Nat}
    (hh : HashBounded h) {t t' : LPT K V}
    (hGood : LPTGood h t) (hrun : lptRehash h t = .ok t') :
    RehashOutcome h t t' :=
  lptRehashCore_outcome hh _
    (fun t2 k2 v2 t2' hg2 hs2 => lptSetFuel_outcome hh _ t2 k2 v2 t2' hg2 hs2)
    t t' hGood hrun

/-! ## Runs of inserts from an empty table -/

/-- A sane capacity ladder: nonempty, all capacities at least 2 (every
configured ladder of the source satisfies this). -/
def sizesGood (l : List Nat) : Prop := l ≠ [] ∧ ∀ s ∈ l, 2 ≤ s

theorem lptEmpty_good (V : Type) {sizes : List Nat} (hs : sizesGood sizes) :
    LPTGood rollingHash (lptEmpty Key V sizes) := by
  obtain ⟨hne, hall⟩ := hs
  have hlen : 0 < sizes.length := List.length_pos.2 hne
  refine ⟨?_, hall, ?_, ?_⟩
  · show 2 ≤ (List.replicate (sizes.getD 0 0) (none : Option (Key × V))).length
    rw [List.length_replicate]
    exact hall _ (getD_mem_of_lt sizes 0 0 hlen)
  · show 0 = countOcc (List.replicate _ none)
    rw [countOcc_replicate]
  · intro p kv hp
    rw [show (lptEmpty Key V sizes).array =
      List.replicate (sizes.getD 0 0) (none : Option (Key × V)) from rfl,
      replicate_getD_none] at hp
    exact Option.noConfusion hp

/-- A sequence of inserts into a fresh open-addressed table. -/
def lptRun (V : Type) (sizes : List Nat) (ops : List (Key × V)) :
    Except TErr (LPT Key V) :=
  ops.foldl (fun acc kv =>
    match acc with
    | .error e => .error e
    | .ok t => lptSet rollingHash t kv.1 kv.2) (.ok (lptEmpty Key V sizes))

/-- `get` after a sequence of inserts. -/
def lptRunGet (V : Type) (sizes : List Nat) (ops : List (Key × V)) (k : Key) :
    Except TErr V :=
  match lptRun V sizes ops with
  | .error e => .error e
  | .ok t => lptGet rollingHash t k

theorem lptRun_step_error {V : Type} (e : TErr) (ops : List (Key × V)) :
    (ops.foldl (fun (acc : Except TErr (LPT Key V)) kv =>
      match acc with
      | .error e2 => .error e2
      | .ok t => lptSet rollingHash t kv.1 kv.2)
      (.error e : Except TErr (LPT Key V))) = .error e := by
  induction ops with
  | nil => rfl
  | cons kv rest ih => simpa using ih

theorem lptRunAux {V : Type} :
    ∀ (ops : List (Key × V)) (acc t : LPT Key V),
    LPTGood rollingHash acc →
    (ops.map Prod.fst).Nodup →
    (ops.foldl (fun (acc : Except TErr (LPT Key V)) kv =>
      match acc with
      | .error e => .error e
      | .ok t => lptSet rollingHash t kv.1 kv.2) (.ok acc)) = .ok t →
    LPTGood rollingHash t ∧
    (∀ kv ∈ ops, lptGet rollingHash t kv.1 = .ok kv.2) ∧
    (∀ k', k' ∉ ops.map Prod.fst → lptGet rollingHash t k' = lptGet rollingHash acc k') := by
  intro ops
  induction ops with
  | nil =>
    intro acc t hGood _ hrun
    cases hrun
    exact ⟨hGood, by simp, fun _ _ => rfl⟩
  | cons kv rest ih =>
    intro acc t hGood hnd hrun
    simp only [List.foldl_cons] at hrun
    cases hstep : lptSet rollingHash acc kv.1 kv.2 with
    | error e =>
      rw [hstep] at hrun
      rw [lptRun_step_error e rest] at hrun
      exact Except.noConfusion hrun
    | ok acc1 =>
      rw [hstep] at hrun
      obtain ⟨hg1, hget1, hfr1, _, _⟩ := lptSet_outcome rollingHash_bounded hGood hstep
      have hnd' : (rest.map Prod.fst).Nodup := by
        simp only [List.map_cons, List.nodup_cons] at hnd
        exact hnd.2
      have hknot : kv.1 ∉ rest.map Prod.fst := by
        simp only [List.map_cons, List.nodup_cons] at hnd
        exact hnd.1
      obtain ⟨hgt, hmem, hfrt⟩ := ih acc1 t hg1 hnd' hrun
      refine ⟨hgt, ?_, ?_⟩
      · intro kv' hkv'
        rcases List.mem_cons.1 hkv' with he | hm
        · subst he
          rw [hfrt kv'.1 hknot, hget1]
        · exact hmem kv' hm
      · intro k' hk'
        simp only [List.map_cons, List.mem_cons] at hk'
        push_neg at hk'
        rw [hfrt k' hk'.2, hfr1 k' hk'.1]

theorem lptRun_roundtrip {V : Type} (sizes : List Nat) (ops : List (Key × V))
    (hs : sizesGood sizes) (hnd : (ops.map Prod.fst).Nodup)
    {t : LPT Key V} (hrun : lptRun V sizes ops = .ok t) :
    LPTGood rollingHash t ∧
    ∀ kv ∈ ops, lptGet rollingHash t kv.1 = .ok kv.2 := by
  obtain ⟨hg, hmem, _⟩ := lptRunAux ops (lptEmpty Key V sizes) t
    (lptEmpty_good V hs) hnd hrun
  exact ⟨hg, hmem⟩

/-! ## Invariant of the double-key table -/

/-- Well-formedness of a double-key table: a well-formed outer table, every
stored inner table well-formed, and a sane internal ladder. -/
structure DKTGood {V : Type} (t : DKT V) : Prop where
  outer : LPTGood rollingHash t.outer
  inner : ∀ p kin, t.outer.array.getD p none = some kin →
    LPTGood rollingHash kin.2
  isizes : sizesGood (t.internalSizes.getD defaultTableSizes)

/-- `__getitem__` of the double-key table is the composition of the two
single-table lookups. -/
theorem dktGet_decompose {V : Type} (t : DKT V) (k1 k2 : Key) :
    dktGet t k1 k2 =
      match lptGet rollingHash t.outer k1 with
      | .error e => .error e
      | .ok inn => lptGet rollingHash inn k2 := by
  unfold dktGet dktLinearProbe lptGet lptProbe
  cases hp : probeAux t.outer.array k1 false
      (rollingHash k1 t.outer.array.length) t.outer.array.length with
  | error e => simp [hp]
  | ok pos1 =>
    simp only [hp]
    cases harr : t.outer.array.getD pos1 none with
    | none => simp [harr]
    | some kin =>
      simp only [harr]
      cases hp2 : probeAux kin.2.array k2 false
          (rollingHash k2 kin.2.array.length) kin.2.array.length with
      | error e => simp [hp2]
      | ok pos2 =>
        simp only [hp2, harr]
        cases kin.2.array.getD pos2 none <;> rfl

theorem lptGet_not_ok_eq {K V : Type} [DecidableEq K] {h : K → Nat → Nat}
    {t : LPT K V} {k : K} (hne : (lptGet h t k).isOk = false) :
    lptGet h t k = .error .keyNotFound := by
  cases hv : lptGet h t k with
  | ok w => rw [hv] at hne; simp [Except.isOk, Except.toBool] at hne
  | error e => rw [lptGet_error_form hv]

theorem lptGet_of_slot {K V : Type} [DecidableEq K] {h : K → Nat → Nat}
    (hh : HashBounded h) {t : LPT K V} (hGood : LPTGood h t) {pos : Nat}
    {kin : K × V} (harr : t.array.getD pos none = some kin) :
    lptGet h t kin.1 = .ok kin.2 := by
  refine (lptGet_ok_iff hh hGood kin.1 kin.2).2 ⟨pos, ?_⟩
  rw [harr]

theorem probeAux_true_of_none {K V : Type} [DecidableEq K]
    {arr : List (Option (K × V))} {k : K} {pos fuel : Nat}
    (hp : arr.getD pos none = none) (hf : 0 < fuel) :
    probeAux arr k true pos fuel = .ok pos := by
  cases fuel with
  | zero => omega
  | succ f =>
    rw [probeAux, hp]
    rfl

theorem lptEmpty_get {V : Type} {sizes : List Nat} (hs : sizesGood sizes)
    (k : Key) : lptGet rollingHash (lptEmpty Key V sizes) k = .error .keyNotFound := by
  have hGood := lptEmpty_good V hs
  refine lptGet_not_ok_eq ?_
  cases hb : (lptGet rollingHash (lptEmpty Key V sizes) k) with
  | error e => rfl
  | ok w =>
    obtain ⟨p, hp⟩ := (lptGet_ok_iff rollingHash_bounded hGood k w).1 hb
    rw [show (lptEmpty Key V sizes).array =
      List.replicate (sizes.getD 0 0) (none : Option (Key × V)) from rfl,
      replicate_getD_none] at hp
    exact Option.noConfusion hp

/-- `DoubleKeyTable._rehash` run to success behaves as a resize of the outer
table and keeps `internal_sizes`. -/
theorem dktRehash_outcome {V : Type} {t2 t' : DKT V}
    (hg : LPTGood rollingHash t2.outer) (hrun : dktRehash t2 = .ok t') :
    RehashOutcome rollingHash t2.outer t'.outer ∧
    t'.internalSizes = t2.internalSizes := by
  unfold dktRehash at hrun
  by_cases hceil : t2.outer.sizeIndex + 1 = t2.outer.sizes.length
  · rw [if_pos hceil] at hrun
    cases hrun
    exact ⟨⟨⟨hg.capTwo, hg.sizesOk, hg.countEq, hg.reach⟩,
      fun _ => rfl, rfl, rfl⟩, rfl⟩
  · rw [if_neg hceil] at hrun
    cases hget : t2.outer.sizes.get? (t2.outer.sizeIndex + 1) with
    | none =>
      rw [hget] at hrun
      exact Except.noConfusion hrun
    | some newCap =>
      rw [hget] at hrun
      simp only [] at hrun
      cases hfold : t2.outer.array.foldl
          (fun (acc : Except TErr (LPT Key (LPT Key V))) cell =>
            match acc, cell with
            | .error e, _ => .error e
            | .ok a, none => .ok a
            | .ok a, some kv => lptSet rollingHash a kv.1 kv.2)
          (.ok { sizes := t2.outer.sizes, sizeIndex := t2.outer.sizeIndex + 1,
                 array := List.replicate newCap none, count := 0 }) with
      | error e =>
        rw [hfold] at hrun
        exact Except.noConfusion hrun
      | ok outer1 =>
        rw [hfold] at hrun
        cases hrun
        have hcap2 : 2 ≤ newCap := hg.sizesOk _ (List.get?_mem hget)
        set t0 : LPT Key (LPT Key V) := ⟨t2.outer.sizes, t2.outer.sizeIndex + 1, List.replicate newCap none, 0⟩ with ht0
        have hGood0 : LPTGood rollingHash t0 := by
          refine ⟨?_, hg.sizesOk, ?_, ?_⟩
          · show 2 ≤ (List.replicate newCap
              (none : Option (Key × LPT Key V))).length
            rw [List.length_replicate]
            exact hcap2
          · show 0 = countOcc (List.replicate _ none)
            rw [countOcc_replicate]
          · intro p kv hp
            rw [show t0.array = List.replicate newCap
              (none : Option (Key × LPT Key V)) from rfl,
              replicate_getD_none] at hp
            exact Option.noConfusion hp
        have hiff0 : ∀ k2 v, lptGet rollingHash t0 k2 = .ok v ↔
            (k2, v) ∈ ([] : List (Key × LPT Key V)) := by
          intro k2 v
          constructor
          · intro hgv
            obtain ⟨p, hp⟩ :=
              (lptGet_ok_iff rollingHash_bounded hGood0 k2 v).1 hgv
            rw [show t0.array = List.replicate newCap
              (none : Option (Key × LPT Key V)) from rfl,
              replicate_getD_none] at hp
            exact Option.noConfusion hp
          · intro hmem
            exact absurd hmem (List.not_mem_nil _)
        have hfold2 : t2.outer.array.foldl (reinsertStep (lptSet rollingHash))
            (.ok t0) = .ok outer1 := by
          rw [← hfold]
          congr 1
          funext a cell
          cases a <;> cases cell <;> rfl
        obtain ⟨hgf, hif, hcf, hsf⟩ := reinsert_fold_outcome rollingHash_bounded
          (lptSet rollingHash)
          (fun a b c d hg2 hs2 => lptSet_outcome rollingHash_bounded hg2 hs2)
          t2.outer.array t0 [] outer1 hGood0 hiff0
          (by rw [countOcc_replicate]; rfl)
          (by simpa using lptGood_keys_nodup hg) hfold2
        refine ⟨⟨hgf, ?_, ?_, hsf⟩, rfl⟩
        · intro k2
          refine exceptV_eq _ _ ?_ (fun e he => lptGet_error_form he)
            (fun e he => lptGet_error_form he)
          intro w
          rw [hif k2 w, lptGet_ok_iff rollingHash_bounded hg k2 w]
          simp only [List.nil_append]
          exact (mem_entriesOf t2.outer.array (k2, w))
        · rw [hcf]
          simp only [List.nil_append]
          exact entriesOf_length t2.outer.array

/-- The inner-table stage of `__setitem__`: store the pair (with the
source's unconditional count increment, which on an empty slot agrees with
`lptStoreAt`) and resize past half load. -/
def dktSetInner {V : Type} (innerPrev : LPT Key V) (pos2 : Nat) (k2 : Key)
    (v : V) : Except TErr (LPT Key V) :=
  if 2 * (lptStoreAt innerPrev pos2 k2 v).count >
      (lptStoreAt innerPrev pos2 k2 v).array.length
  then lptRehash rollingHash (lptStoreAt innerPrev pos2 k2 v)
  else .ok (lptStoreAt innerPrev pos2 k2 v)

/-- The outer-table stage of `__setitem__`: write the updated inner table
back into the outer slot and resize the outer table past half load. -/
def dktSetOuter {V : Type} (t : DKT V) (pos1 : Nat) (kx : Key)
    (innerRes : Except TErr (LPT Key V)) : Except TErr (DKT V) :=
  match innerRes with
  | .error e => .error e
  | .ok inner2 =>
    if 2 * (lptStoreAt t.outer pos1 kx inner2).count >
        (lptStoreAt t.outer pos1 kx inner2).array.length
    then dktRehash { t with outer := lptStoreAt t.outer pos1 kx inner2 }
    else .ok { t with outer := lptStoreAt t.outer pos1 kx inner2 }

theorem dktSetInner_outcome {V : Type} {innerPrev : LPT Key V} {pos2 : Nat}
    {k2 : Key} {v : V} {inner2 : LPT Key V}
    (hGoodP : LPTGood rollingHash innerPrev)
    (hp2 : lptProbe rollingHash innerPrev k2 true = .ok pos2)
    (hrun : dktSetInner innerPrev pos2 k2 v = .ok inner2) :
    LPTGood rollingHash inner2 ∧ lptGet rollingHash inner2 k2 = .ok v ∧
    (∀ kk, kk ≠ k2 → lptGet rollingHash inner2 kk = lptGet rollingHash innerPrev kk) := by
  obtain ⟨⟨hg1, hget1, hfr1, _, _⟩, _⟩ :=
    lptStoreAt_outcome (v := v) rollingHash_bounded hGoodP hp2
  unfold dktSetInner at hrun
  by_cases hload : 2 * (lptStoreAt innerPrev pos2 k2 v).count >
      (lptStoreAt innerPrev pos2 k2 v).array.length
  · rw [if_pos hload] at hrun
    obtain ⟨hg2, hget2, _, _⟩ := lptRehash_outcome rollingHash_bounded hg1 hrun
    exact ⟨hg2, by rw [hget2 k2, hget1],
      fun kk hkk => by rw [hget2 kk, hfr1 kk hkk]⟩
  · rw [if_neg hload] at hrun
    cases hrun
    exact ⟨hg1, hget1, hfr1⟩

theorem dktSetOuter_outcome {V : Type} {t : DKT V} {pos1 : Nat} {kx : Key}
    {inner2 : LPT Key V} {t' : DKT V}
    (hOG : LPTGood rollingHash t.outer)
    (hp : lptProbe rollingHash t.outer kx true = .ok pos1)
    (hrun : dktSetOuter t pos1 kx (.ok inner2) = .ok t') :
    LPTGood rollingHash t'.outer ∧
    (∀ kk, lptGet rollingHash t'.outer kk =
      lptGet rollingHash (lptStoreAt t.outer pos1 kx inner2) kk) ∧
    countOcc t'.outer.array = countOcc (lptStoreAt t.outer pos1 kx inner2).array ∧
    t'.internalSizes = t.internalSizes := by
  obtain ⟨⟨hg1, _, _, _, _⟩, _⟩ :=
    lptStoreAt_outcome (v := inner2) rollingHash_bounded hOG hp
  unfold dktSetOuter at hrun
  simp only [] at hrun
  by_cases hload : 2 * (lptStoreAt t.outer pos1 kx inner2).count >
      (lptStoreAt t.outer pos1 kx inner2).array.length
  · rw [if_pos hload] at hrun
    obtain ⟨⟨hg2, hget2, hc2, _⟩, hisz⟩ := dktRehash_outcome hg1 hrun
    exact ⟨hg2, hget2, hc2, hisz⟩
  · rw [if_neg hload] at hrun
    cases hrun
    exact ⟨hg1, fun _ => rfl, rfl, rfl⟩

theorem dktSet_eq_create {V : Type} (t : DKT V) (k1 k2 : Key) (v : V)
    {pos1 : Nat}
    (hp : probeAux t.outer.array k1 true
      (rollingHash k1 t.outer.array.length) t.outer.array.length = .ok pos1)
    (hpos1 : pos1 < t.outer.array.length)
    (harr : t.outer.array.getD pos1 none = none) :
    dktSet t k1 k2 v =
      dktSetOuter t pos1 k1
        (dktSetInner (lptEmpty Key V (t.internalSizes.getD defaultTableSizes))
          (rollingHash k2
            (lptEmpty Key V (t.internalSizes.getD defaultTableSizes)).array.length)
          k2 v) := by
  have hsetget : (t.outer.array.set pos1
      (some (k1, lptEmpty Key V (t.internalSizes.getD defaultTableSizes)))).getD
      pos1 none = some (k1, lptEmpty Key V (t.internalSizes.getD defaultTableSizes)) :=
    getD_set_self t.outer.array pos1 _ none hpos1
  have hemptyget : ∀ p : Nat,
      (lptEmpty Key V (t.internalSizes.getD defaultTableSizes)).array.getD p none =
      (none : Option (Key × V)) := fun p => replicate_getD_none _ p
  unfold dktSet dktLinearProbe dktSetOuter dktSetInner
  simp only [hp, harr, hsetget, lptStoreAt, hemptyget, List.set_set,
    Option.isNone_none, if_true, eq_self_iff_true]

theorem dktSet_eq_update {V : Type} (t : DKT V) (k1 k2 : Key) (v : V)
    {pos1 pos2 : Nat} {kin : Key × LPT Key V}
    (hp : probeAux t.outer.array k1 true
      (rollingHash k1 t.outer.array.length) t.outer.array.length = .ok pos1)
    (harr : t.outer.array.getD pos1 none = some kin)
    (hp2 : probeAux kin.2.array k2 true
      (rollingHash k2 kin.2.array.length) kin.2.array.length = .ok pos2)
    (hempty2 : kin.2.array.getD pos2 none = none) :
    dktSet t k1 k2 v = dktSetOuter t pos1 kin.1 (dktSetInner kin.2 pos2 k2 v) := by
  unfold dktSet dktLinearProbe dktSetOuter dktSetInner lptProbe
  simp only [hp, harr, hp2, hempty2, lptStoreAt, Option.isNone_none,
    Option.isNone_some, if_true, eq_self_iff_true, Bool.false_eq_true, if_false,
    Nat.add_zero]

theorem dktSetOuter_error {V : Type} (t : DKT V) (pos1 : Nat) (kx : Key)
    (e : TErr) : dktSetOuter t pos1 kx (.error e) = .error e := rfl

theorem dktSet_assemble {V : Type} {t t' : DKT V} {k1 k2 : Key} {v : V}
    {pos1 : Nat} {innerPrev inner2 : LPT Key V}
    (hGood : DKTGood t)
    (hprev : (lptGet rollingHash t.outer k1 = .error .keyNotFound ∧
        (∀ kk, lptGet rollingHash innerPrev kk = .error .keyNotFound)) ∨
      lptGet rollingHash t.outer k1 = .ok innerPrev)
    (hGI2 : LPTGood rollingHash inner2)
    (hgetI2 : lptGet rollingHash inner2 k2 = .ok v)
    (hfrI2 : ∀ kk, kk ≠ k2 →
      lptGet rollingHash inner2 kk = lptGet rollingHash innerPrev kk)
    (hpq : lptProbe rollingHash t.outer k1 true = .ok pos1)
    (hGO : LPTGood rollingHash t'.outer)
    (hgetsO : ∀ kk, lptGet rollingHash t'.outer kk =
      lptGet rollingHash (lptStoreAt t.outer pos1 k1 inner2) kk)
    (hcO : countOcc t'.outer.array =
      countOcc (lptStoreAt t.outer pos1 k1 inner2).array)
    (hiszO : t'.internalSizes = t.internalSizes) :
    DKTGood t' ∧ dktGet t' k1 k2 = .ok v ∧
    (∀ p1 p2 : Key, ¬(p1 = k1 ∧ p2 = k2) → dktGet t' p1 p2 = dktGet t p1 p2) ∧
    dktLen t' = dktLen t +
      (if (lptGet rollingHash t.outer k1).isOk then 0 else 1) ∧
    t'.internalSizes = t.internalSizes := by
  have hlen0 : 0 < t.outer.array.length :=
    lt_of_lt_of_le (by norm_num) hGood.outer.capTwo
  have hpos1 : pos1 < t.outer.array.length :=
    probeAux_ok_lt (rollingHash_bounded k1 _ hlen0) hpq
  obtain ⟨⟨hgW, hgetW, hfrW, hcW, _⟩, _⟩ :=
    lptStoreAt_outcome (v := inner2) rollingHash_bounded hGood.outer hpq
  refine ⟨⟨hGO, ?_, by rw [hiszO]; exact hGood.isizes⟩, ?_, ?_, ?_, hiszO⟩
  · -- every inner table stored in the result is well-formed
    intro p kin2 hp2slot
    have hget : lptGet rollingHash t'.outer kin2.1 = .ok kin2.2 :=
      lptGet_of_slot rollingHash_bounded hGO hp2slot
    rw [hgetsO kin2.1] at hget
    obtain ⟨q, hq⟩ := (lptGet_ok_iff rollingHash_bounded hgW kin2.1 kin2.2).1 hget
    have hqarr : (t.outer.array.set pos1 (some (k1, inner2))).getD q none =
        some (kin2.1, kin2.2) := hq
    by_cases hqp : q = pos1
    · subst hqp
      rw [getD_set_self t.outer.array q _ none hpos1] at hqarr
      injection hqarr with hpair
      have h2 : inner2 = kin2.2 := congrArg Prod.snd hpair
      rw [← h2]
      exact hGI2
    · rw [getD_set_other t.outer.array pos1 q _ none (fun he => hqp he.symm)] at hqarr
      exact hGood.inner q (kin2.1, kin2.2) hqarr
  · rw [dktGet_decompose, hgetsO k1, hgetW]
    exact hgetI2
  · intro p1 p2 hne
    rw [dktGet_decompose, dktGet_decompose]
    by_cases h1 : p1 = k1
    · subst h1
      have h2 : p2 ≠ k2 := fun he => hne ⟨rfl, he⟩
      rw [hgetsO p1, hgetW]
      rcases hprev with ⟨herr, hempty⟩ | hokP
      · rw [herr]
        show lptGet rollingHash inner2 p2 = Except.error TErr.keyNotFound
        rw [hfrI2 p2 h2, hempty p2]
      · rw [hokP]
        show lptGet rollingHash inner2 p2 = lptGet rollingHash innerPrev p2
        exact hfrI2 p2 h2
    · rw [hgetsO p1, hfrW p1 h1]
  · show t'.outer.count = t.outer.count + _
    rw [hGO.countEq, hcO, hcW, hGood.outer.countEq]

theorem dktSet_outcome {V : Type} {t t' : DKT V} {k1 k2 : Key} {v : V}
    (hGood : DKTGood t) (hfresh : (dktGet t k1 k2).isOk = false)
    (hset : dktSet t k1 k2 v = .ok t') :
    DKTGood t' ∧ dktGet t' k1 k2 = .ok v ∧
    (∀ p1 p2 : Key, ¬(p1 = k1 ∧ p2 = k2) → dktGet t' p1 p2 = dktGet t p1 p2) ∧
    dktLen t' = dktLen t +
      (if (lptGet rollingHash t.outer k1).isOk then 0 else 1) ∧
    t'.internalSizes = t.internalSizes := by
  have hOG := hGood.outer
  have hlen0 : 0 < t.outer.array.length :=
    lt_of_lt_of_le (by norm_num) hOG.capTwo
  have hstart := rollingHash_bounded k1 _ hlen0
  cases hp : probeAux t.outer.array k1 true
      (rollingHash k1 t.outer.array.length) t.outer.array.length with
  | error e =>
    exfalso
    unfold dktSet dktLinearProbe at hset
    simp only [hp] at hset
    exact Except.noConfusion hset
  | ok pos1 =>
    have hpos1 : pos1 < t.outer.array.length := probeAux_ok_lt hstart hp
    cases harr : t.outer.array.getD pos1 none with
    | none =>
      -- creation of a fresh inner table
      rw [dktSet_eq_create t k1 k2 v hp hpos1 harr] at hset
      have hszI : sizesGood (t.internalSizes.getD defaultTableSizes) := hGood.isizes
      have hGoodE : LPTGood rollingHash
          (lptEmpty Key V (t.internalSizes.getD defaultTableSizes)) :=
        lptEmpty_good V hszI
      have hcapI : 0 < (lptEmpty Key V
          (t.internalSizes.getD defaultTableSizes)).array.length :=
        lt_of_lt_of_le (by norm_num) hGoodE.capTwo
      have hp2 : lptProbe rollingHash
          (lptEmpty Key V (t.internalSizes.getD defaultTableSizes)) k2 true =
          .ok (rollingHash k2 (lptEmpty Key V
            (t.internalSizes.getD defaultTableSizes)).array.length) :=
        probeAux_true_of_none (replicate_getD_none _ _) hcapI
      cases hIres : dktSetInner
          (lptEmpty Key V (t.internalSizes.getD defaultTableSizes))
          (rollingHash k2 (lptEmpty Key V
            (t.internalSizes.getD defaultTableSizes)).array.length) k2 v with
      | error e =>
        rw [hIres, dktSetOuter_error] at hset
        exact Except.noConfusion hset
      | ok inner2 =>
        rw [hIres] at hset
        obtain ⟨hGI2, hgetI2, hfrI2⟩ := dktSetInner_outcome hGoodE hp2 hIres
        obtain ⟨hGO, hgetsO, hcO, hiszO⟩ := dktSetOuter_outcome hOG hp hset
        have habs := key_absent_of_probe_true_empty hOG hstart hp harr
        have herr1 : lptGet rollingHash t.outer k1 = .error .keyNotFound := by
          refine lptGet_not_ok_eq ?_
          cases hb : (lptGet rollingHash t.outer k1) with
          | error e => rfl
          | ok w =>
            obtain ⟨p, hps⟩ := (lptGet_ok_iff rollingHash_bounded hOG k1 w).1 hb
            exact absurd rfl (habs p (k1, w) hps)
        exact dktSet_assemble hGood
          (Or.inl ⟨herr1, fun kk => lptEmpty_get hszI kk⟩)
          hGI2 hgetI2 hfrI2 hp hGO hgetsO hcO hiszO
    | some kin =>
      -- the top-level key is already present
      have hk1 : kin.1 = k1 := by
        rcases probeAux_ok_end hstart hp with ⟨hnone, _⟩ | ⟨kv, hkv, hke⟩
        · rw [harr] at hnone; exact Option.noConfusion hnone
        · rw [harr] at hkv; cases hkv; exact hke
      have hGoodI : LPTGood rollingHash kin.2 := hGood.inner pos1 kin harr
      have hprevok : lptGet rollingHash t.outer k1 = .ok kin.2 := by
        rw [← hk1]
        exact lptGet_of_slot rollingHash_bounded hOG harr
      have hfreshI : (lptGet rollingHash kin.2 k2).isOk = false := by
        rw [dktGet_decompose, hprevok] at hfresh
        exact hfresh
      have hlenI : 0 < kin.2.array.length :=
        lt_of_lt_of_le (by norm_num) hGoodI.capTwo
      cases hp2 : probeAux kin.2.array k2 true
          (rollingHash k2 kin.2.array.length) kin.2.array.length with
      | error e =>
        exfalso
        unfold dktSet dktLinearProbe lptProbe at hset
        simp only [hp, harr, hp2] at hset
        exact Except.noConfusion hset
      | ok pos2 =>
        have hempty2 : kin.2.array.getD pos2 none = none := by
          rcases probeAux_ok_end (rollingHash_bounded k2 _ hlenI) hp2 with
            ⟨hnone, _⟩ | ⟨kv, hkv, hke⟩
          · exact hnone
          · exfalso
            have : (lptGet rollingHash kin.2 k2).isOk = true :=
              (lptGet_isOk_iff rollingHash_bounded hGoodI k2).2 ⟨pos2, kv, hkv, hke⟩
            rw [this] at hfreshI
            exact Bool.noConfusion hfreshI
        rw [dktSet_eq_update t k1 k2 v hp harr hp2 hempty2, hk1] at hset
        cases hIres : dktSetInner kin.2 pos2 k2 v with
        | error e =>
          rw [hIres, dktSetOuter_error] at hset
          exact Except.noConfusion hset
        | ok inner2 =>
          rw [hIres] at hset
          obtain ⟨hGI2, hgetI2, hfrI2⟩ := dktSetInner_outcome hGoodI hp2 hIres
          obtain ⟨hGO, hgetsO, hcO, hiszO⟩ := dktSetOuter_outcome hOG hp hset
          exact dktSet_assemble hGood (Or.inr hprevok)
            hGI2 hgetI2 hfrI2 hp hGO hgetsO hcO hiszO

/-! ## Double-key table runs and length bookkeeping -/

theorem defaultTableSizes_good : sizesGood defaultTableSizes := by
  constructor
  · intro h
    exact List.noConfusion h
  · intro s hs
    unfold defaultTableSizes at hs
    fin_cases hs <;> norm_num

theorem dktNew_good (V : Type) {szs iszs : Option (List Nat)}
    (h1 : sizesGood (szs.getD defaultTableSizes))
    (h2 : sizesGood (iszs.getD defaultTableSizes)) :
    DKTGood (dktNew V szs iszs) := by
  refine ⟨lptEmpty_good (LPT Key V) h1, ?_, h2⟩
  intro p kin hp
  rw [show (dktNew V szs iszs).outer.array =
    List.replicate ((szs.getD defaultTableSizes).getD 0 0)
      (none : Option (Key × LPT Key V)) from rfl, replicate_getD_none] at hp
  exact Option.noConfusion hp

theorem dktNew_get (V : Type) {szs iszs : Option (List Nat)}
    (h1 : sizesGood (szs.getD defaultTableSizes)) (k1 k2 : Key) :
    dktGet (dktNew V szs iszs) k1 k2 = .error .keyNotFound := by
  rw [dktGet_decompose]
  rw [show (dktNew V szs iszs).outer = lptEmpty Key (LPT Key V)
    (szs.getD defaultTableSizes) from rfl, lptEmpty_get h1]

/-- A sequence of pair inserts into a fresh double-key table. -/
def dktRun (V : Type) (szs iszs : Option (List Nat))
    (ops : List ((Key × Key) × V)) : Except TErr (DKT V) :=
  ops.foldl (fun acc kv =>
    match acc with
    | .error e => .error e
    | .ok t => dktSet t kv.1.1 kv.1.2 kv.2) (.ok (dktNew V szs iszs))

/-- `get` after a sequence of pair inserts. -/
def dktRunGet (V : Type) (szs iszs : Option (List Nat))
    (ops : List ((Key × Key) × V)) (p : Key × Key) : Except TErr V :=
  match dktRun V szs iszs ops with
  | .error e => .error e
  | .ok t => dktGet t p.1 p.2

theorem dktRun_step_error {V : Type} (e : TErr) (ops : List ((Key × Key) × V)) :
    (ops.foldl (fun (acc : Except TErr (DKT V)) kv =>
      match acc with
      | .error e2 => .error e2
      | .ok t => dktSet t kv.1.1 kv.1.2 kv.2) (.error e)) = .error e := by
  induction ops with
  | nil => rfl
  | cons kv rest ih => simpa using ih

theorem dktRunAux {V : Type} :
    ∀ (ops : List ((Key × Key) × V)) (acc t : DKT V),
    DKTGood acc →
    (ops.map Prod.fst).Nodup →
    (∀ kv ∈ ops, (dktGet acc kv.1.1 kv.1.2).isOk = false) →
    (ops.foldl (fun (acc : Except TErr (DKT V)) kv =>
      match acc with
      | .error e => .error e
      | .ok t => dktSet t kv.1.1 kv.1.2 kv.2) (.ok acc)) = .ok t →
    DKTGood t ∧
    (∀ kv ∈ ops, dktGet t kv.1.1 kv.1.2 = .ok kv.2) ∧
    (∀ p : Key × Key, p ∉ ops.map Prod.fst →
      dktGet t p.1 p.2 = dktGet acc p.1 p.2) := by
  intro ops
  induction ops with
  | nil =>
    intro acc t hGood _ _ hrun
    cases hrun
    exact ⟨hGood, by simp, fun _ _ => rfl⟩
  | cons kv rest ih =>
    intro acc t hGood hnd hfr hrun
    simp only [List.foldl_cons] at hrun
    cases hstep : dktSet acc kv.1.1 kv.1.2 kv.2 with
    | error e =>
      rw [hstep] at hrun
      rw [dktRun_step_error e rest] at hrun
      exact Except.noConfusion hrun
    | ok acc1 =>
      rw [hstep] at hrun
      obtain ⟨hg1, hget1, hfr1, _, _⟩ :=
        dktSet_outcome hGood (hfr kv (by simp)) hstep
      have hnd' : (rest.map Prod.fst).Nodup := by
        simp only [List.map_cons, List.nodup_cons] at hnd
        exact hnd.2
      have hknot : kv.1 ∉ rest.map Prod.fst := by
        simp only [List.map_cons, List.nodup_cons] at hnd
        exact hnd.1
      have hfr' : ∀ kv' ∈ rest, (dktGet acc1 kv'.1.1 kv'.1.2).isOk = false := by
        intro kv' hkv'
        have hne : ¬(kv'.1.1 = kv.1.1 ∧ kv'.1.2 = kv.1.2) := by
          intro ⟨he1, he2⟩
          have : kv'.1 = kv.1 := Prod.ext he1 he2
          rw [← this] at hknot
          exact hknot (List.mem_map.2 ⟨kv', hkv', rfl⟩)
        rw [hfr1 kv'.1.1 kv'.1.2 hne]
        exact hfr kv' (List.mem_cons_of_mem kv hkv')
      obtain ⟨hgt, hmem, hfrt⟩ := ih acc1 t hg1 hnd' hfr' hrun
      refine ⟨hgt, ?_, ?_⟩
      · intro kv' hkv'
        rcases List.mem_cons.1 hkv' with he | hm
        · subst he
          have : kv'.1 ∉ rest.map Prod.fst := hknot
          rw [show dktGet t kv'.1.1 kv'.1.2 = dktGet acc1 kv'.1.1 kv'.1.2 from
            hfrt kv'.1 this]
          exact hget1
        · exact hmem kv' hm
      · intro p hp
        simp only [List.map_cons, List.mem_cons] at hp
        push_neg at hp
        have hne : ¬(p.1 = kv.1.1 ∧ p.2 = kv.1.2) := by
          intro ⟨he1, he2⟩
          exact hp.1 (Prod.ext he1 he2)
        rw [hfrt p hp.2, hfr1 p.1 p.2 hne]

theorem dktRun_roundtrip {V : Type} (szs iszs : Option (List Nat))
    (ops : List ((Key × Key) × V))
    (h1 : sizesGood (szs.getD defaultTableSizes))
    (h2 : sizesGood (iszs.getD defaultTableSizes))
    (hnd : (ops.map Prod.fst).Nodup)
    {t : DKT V} (hrun : dktRun V szs iszs ops = .ok t) :
    DKTGood t ∧ ∀ kv ∈ ops, dktGet t kv.1.1 kv.1.2 = .ok kv.2 := by
  obtain ⟨hg, hmem, _⟩ := dktRunAux ops (dktNew V szs iszs) t
    (dktNew_good V h1 h2) hnd
    (fun kv _ => by rw [dktNew_get V h1]; rfl) hrun
  exact ⟨hg, hmem⟩

/-! ## Deletion bookkeeping -/

theorem lptDelWalk_count {K V : Type} [DecidableEq K] (h : K → Nat → Nat) :
    ∀ (fuel : Nat) (t : LPT K V) (pos : Nat),
    (lptDelWalk h fuel t pos).count = t.count := by
  intro fuel
  induction fuel with
  | zero => intro t pos; rfl
  | succ f ih =>
    intro t pos
    rw [lptDelWalk]
    cases harr : t.array.getD pos none with
    | none => simp only [harr]
    | some kv =>
      simp only [harr]
      cases hpr : lptProbe h { t with array := t.array.set pos none } kv.1 true with
      | error e => simp only [hpr]
      | ok newpos =>
        simp only [hpr]
        exact ih _ _

theorem lptDel_count {K V : Type} [DecidableEq K] {h : K → Nat → Nat}
    {t t' : LPT K V} {k : K} (hdel : lptDel h t k = .ok t') :
    t'.count = t.count - 1 := by
  unfold lptDel at hdel
  cases hp : lptProbe h t k false with
  | error e =>
    rw [hp] at hdel
    exact Except.noConfusion hdel
  | ok pos =>
    simp only [hp] at hdel
    cases hdel
    exact lptDelWalk_count h _ _ _

theorem countOcc_pos {K V : Type} {arr : List (Option (K × V))} {p : Nat}
    {kv : K × V} (hp : arr.getD p none = some kv) : 0 < countOcc arr := by
  induction arr generalizing p with
  | nil => simp [List.getD] at hp
  | cons c rest ih =>
    cases p with
    | zero =>
      simp only [List.getD_cons_zero] at hp
      subst hp
      simp [countOcc, List.countP_cons]
    | succ q =>
      simp only [List.getD_cons_succ] at hp
      have := ih hp
      simp only [countOcc, List.countP_cons] at *
      omega

/-- `DoubleKeyTable.__delitem__` run to success: the deleted pair was
present; the outer count drops by one exactly when the inner table held a
single entry (which is then discarded, its outer slot cleared), and is
unchanged otherwise. -/
theorem dktDel_len {V : Type} {t t' : DKT V} {k1 k2 : Key}
    (hGood : DKTGood t) (hdel : dktDel t k1 k2 = .ok t') :
    ∃ pos1 kin, t.outer.array.getD pos1 none = some kin ∧ kin.1 = k1 ∧
      (dktGet t k1 k2).isOk = true ∧ 1 ≤ kin.2.count ∧
      (kin.2.count = 1 →
        t'.outer.array.getD pos1 none = none ∧ dktLen t' = dktLen t - 1) ∧
      (kin.2.count ≠ 1 → dktLen t' = dktLen t) := by
  have hOG := hGood.outer
  have hlen0 : 0 < t.outer.array.length :=
    lt_of_lt_of_le (by norm_num) hOG.capTwo
  have hstart := rollingHash_bounded k1 _ hlen0
  unfold dktDel dktLinearProbe lptProbe at hdel
  cases hp : probeAux t.outer.array k1 false
      (rollingHash k1 t.outer.array.length) t.outer.array.length with
  | error e =>
    simp only [hp] at hdel
    exact Except.noConfusion hdel
  | ok pos1 =>
    simp only [hp] at hdel
    have hpos1 : pos1 < t.outer.array.length := probeAux_ok_lt hstart hp
    cases harr : t.outer.array.getD pos1 none with
    | none =>
      simp only [harr] at hdel
      exact Except.noConfusion hdel
    | some kin =>
      simp only [harr] at hdel
      have hk1 : kin.1 = k1 := by
        rcases probeAux_ok_end hstart hp with ⟨hnone, hcon⟩ | ⟨kv, hkv, hke⟩
        · exact Bool.noConfusion hcon
        · rw [harr] at hkv; cases hkv; exact hke
      have hGoodI : LPTGood rollingHash kin.2 := hGood.inner pos1 kin harr
      have hlenI : 0 < kin.2.array.length :=
        lt_of_lt_of_le (by norm_num) hGoodI.capTwo
      cases hp2 : probeAux kin.2.array k2 false
          (rollingHash k2 kin.2.array.length) kin.2.array.length with
      | error e =>
        simp only [hp2] at hdel
        exact Except.noConfusion hdel
      | ok pos2 =>
        simp only [hp2] at hdel
        simp only [harr] at hdel
        cases hdl : lptDel rollingHash kin.2 k2 with
        | error e =>
          rw [hdl] at hdel
          exact Except.noConfusion hdel
        | ok inner1 =>
          simp only [hdl] at hdel
          have hslot2 : ∃ kv2 : Key × V,
              kin.2.array.getD pos2 none = some kv2 ∧ kv2.1 = k2 := by
            rcases probeAux_ok_end (rollingHash_bounded k2 _ hlenI) hp2 with
              ⟨_, hcon⟩ | ⟨kv2, hkv2, hke2⟩
            · exact Bool.noConfusion hcon
            · exact ⟨kv2, hkv2, hke2⟩
          obtain ⟨kv2, hkv2, hke2⟩ := hslot2
          have hgetok : (dktGet t k1 k2).isOk = true := by
            rw [dktGet_decompose,
              show lptGet rollingHash t.outer k1 = .ok kin.2 from by
                rw [← hk1]; exact lptGet_of_slot rollingHash_bounded hOG harr]
            show (lptGet rollingHash kin.2 k2).isOk = true
            rw [show lptGet rollingHash kin.2 k2 = .ok kv2.2 from
              (lptGet_ok_iff rollingHash_bounded hGoodI k2 kv2.2).2
                ⟨pos2, by rw [hkv2, ← hke2]⟩]
            rfl
          have hcnt1 : 1 ≤ kin.2.count := by
            rw [hGoodI.countEq]
            exact countOcc_pos hkv2
          have hc1 : inner1.count = kin.2.count - 1 := lptDel_count hdl
          refine ⟨pos1, kin, harr, hk1, hgetok, hcnt1, ?_, ?_⟩
          · intro hone
            have hzero : inner1.count = 0 := by omega
            rw [if_pos hzero] at hdel
            cases hdel
            constructor
            · show (t.outer.array.set pos1 none).getD pos1 none = none
              exact getD_set_self t.outer.array pos1 none none hpos1
            · rfl
          · intro hne
            have hzero : ¬inner1.count = 0 := by omega
            rw [if_neg hzero] at hdel
            cases hdel
            rfl

/-! ## Top-level keys and the two-level flatten -/

/-- `len()` of the double-key table counts exactly the top-level keys. -/
theorem dktLen_eq_topkeys {V : Type} {t : DKT V} (hGood : DKTGood t) :
    dktLen t = (dktKeysNone t).length := by
  show t.outer.count = (lptKeys t.outer).length
  rw [lptKeys_eq_entries, List.length_map, entriesOf_length, hGood.outer.countEq]

/-- Stated from the spec's words, for comparison with `keys(None)`: the full
two-level flatten of the bottom-level keys, across all outer slots and all
inner slots. -/
def dktBottomKeys {V : Type} (t : DKT V) : List Key :=
  (entriesOf t.outer.array).foldl (fun l kv => l ++ lptKeys kv.2) []

/-- Stated from the spec's words, for comparison with `values(None)`: the
full two-level flatten of the bottom-level values. -/
def dktBottomValues {V : Type} (t : DKT V) : List V :=
  (entriesOf t.outer.array).foldl (fun l kv => l ++ lptValuesList kv.2) []

/-- The `values(None)` fold over a list of keys of stored entries resolves
each probe at the entry's own slot. -/
theorem dktValues_fold {V : Type} {t : DKT V} (hOG : LPTGood rollingHash t.outer) :
    ∀ (es : List (Key × LPT Key V)) (acc : List V),
    (∀ kv ∈ es, ∃ p, t.outer.array.getD p none = some kv) →
    (es.map Prod.fst).foldl (dktValuesStep t) (.ok acc)
      = .ok (es.foldl (fun l kv => l ++ lptValuesList kv.2) acc) := by
  intro es
  induction es with
  | nil => intro acc _; rfl
  | cons kv rest ih =>
    intro acc hmem
    obtain ⟨p, hp⟩ := hmem kv (by simp)
    have hreach := hOG.reach p kv hp
    simp only [List.map_cons, List.foldl_cons]
    rw [show dktValuesStep t (.ok acc) kv.1 = .ok (acc ++ lptValuesList kv.2) from by
      unfold dktValuesStep
      simp only [hreach, hp]]
    exact ih _ (fun kv' h' => hmem kv' (List.mem_cons_of_mem _ h'))

/-- `values(None)` succeeds on a well-formed table and returns the two-level
flatten of the values. -/
theorem dktValuesNone_eq {V : Type} {t : DKT V} (hGood : DKTGood t) :
    dktValues t none = .ok (dktBottomValues t) := by
  show (dktKeysNone t).foldl (dktValuesStep t) (.ok []) = _
  rw [show dktKeysNone t = (entriesOf t.outer.array).map Prod.fst from
    lptKeys_eq_entries t.outer]
  exact dktValues_fold hGood.outer (entriesOf t.outer.array) []
    (fun kv h => (mem_entriesOf _ kv).1 h)

/-- `keys(k1)` for a present, truthy top-level key returns the keys of its
inner table. -/
theorem dktKeys_some_present {V : Type} {t : DKT V} (hGood : DKTGood t)
    {k1 : Key} {inn : LPT Key V} (hne : k1 ≠ [])
    (hget : lptGet rollingHash t.outer k1 = .ok inn) :
    dktKeys t (some k1) = .ok (lptKeys inn) := by
  obtain ⟨p, hp⟩ := (lptGet_ok_iff rollingHash_bounded hGood.outer k1 inn).1 hget
  have hreach := hGood.outer.reach p (k1, inn) hp
  show (if k1 = [] then Except.ok (dktKeysNone t) else _) = _
  rw [if_neg hne]
  simp only [hreach, hp]

/-- `values(k1)` for a present top-level key returns the values of its inner
table. -/
theorem dktValues_some_present {V : Type} {t : DKT V} (hGood : DKTGood t)
    {k1 : Key} {inn : LPT Key V}
    (hget : lptGet rollingHash t.outer k1 = .ok inn) :
    dktValues t (some k1) = .ok (lptValuesList inn) := by
  obtain ⟨p, hp⟩ := (lptGet_ok_iff rollingHash_bounded hGood.outer k1 inn).1 hget
  have hreach := hGood.outer.reach p (k1, inn) hp
  unfold dktValues
  simp only [hreach, hp]

/-! ## Lookup view of the recursive-split table -/

/-- The slot selected at any depth is within the 27-slot node. -/
theorem rstHashAt_lt (lvl : Nat) (k : Key) : rstHashAt lvl k < 27 := by
  unfold rstHashAt
  split
  · exact lt_of_lt_of_le (Nat.mod_lt _ (by norm_num)) (by norm_num)
  · norm_num

/-- The abstract content of a lookup in a nested node: follow the key's hash
at each deeper level until a leaf or an empty slot decides. -/
def rstLookup {V : Type} (k : Key) :
    List (Option (RCell V)) → Nat → Option V :=
  fun tbl lvl =>
  match h : tbl.getD (rstHashAt lvl k) none with
  | none => none
  | some (.pair k0 v0) => if k0 = k then some v0 else none
  | some (.sub t) => rstLookup k t (lvl + 1)
termination_by tbl => sizeOf tbl
decreasing_by exact RCell.sizeOf_of_getD_sub h

/-- Every node reachable from a dimension-checked node again has 27 slots:
the shape invariant of the nested table. -/
def rowOkB {V : Type} : List (Option (RCell V)) → Bool
  | [] => true
  | none :: rest => rowOkB rest
  | some (.pair _ _) :: rest => rowOkB rest
  | some (.sub t) :: rest => (t.length == 27) && rowOkB t && rowOkB rest
termination_by l => sizeOf l
decreasing_by all_goals (simp_wf; try omega)

theorem rowOkB_nil {V : Type} : rowOkB ([] : List (Option (RCell V))) = true := by
  rw [rowOkB]

theorem rowOkB_cons_none {V : Type} (rest : List (Option (RCell V))) :
    rowOkB (none :: rest) = rowOkB rest := by
  rw [rowOkB]

theorem rowOkB_cons_pair {V : Type} (k : Key) (v : V)
    (rest : List (Option (RCell V))) :
    rowOkB (some (.pair k v) :: rest) = rowOkB rest := by
  rw [rowOkB]

theorem rowOkB_cons_sub {V : Type} (t rest : List (Option (RCell V))) :
    rowOkB (some (.sub t) :: rest)
      = ((t.length == 27) && rowOkB t && rowOkB rest) := by
  rw [rowOkB]

theorem rowOkB_cons_tail {V : Type} {c : Option (RCell V)}
    {rest : List (Option (RCell V))} (h : rowOkB (c :: rest) = true) :
    rowOkB rest = true := by
  cases c with
  | none => rw [rowOkB_cons_none] at h; exact h
  | some cc =>
    cases cc with
    | pair k v => rw [rowOkB_cons_pair] at h; exact h
    | sub t2 =>
      rw [rowOkB_cons_sub] at h
      simp only [Bool.and_eq_true] at h
      exact h.2

theorem rowOkB_replicate {V : Type} (n : Nat) :
    rowOkB (List.replicate n (none : Option (RCell V))) = true := by
  induction n with
  | zero => exact rowOkB_nil
  | succ m ih => rw [List.replicate_succ, rowOkB_cons_none]; exact ih

/-- Reading a sub-table out of a dimension-checked node yields a
dimension-checked 27-slot node. -/
theorem rowOkB_getD_sub {V : Type} :
    ∀ (tbl : List (Option (RCell V))) (i : Nat) (t : List (Option (RCell V))),
    rowOkB tbl = true → tbl.getD i none = some (.sub t) →
    t.length = 27 ∧ rowOkB t = true := by
  intro tbl
  induction tbl with
  | nil =>
    intro i t _ hg
    simp [List.getD] at hg
  | cons c rest ih =>
    intro i t hok hg
    cases i with
    | zero =>
      simp only [List.getD_cons_zero] at hg
      subst hg
      rw [rowOkB_cons_sub] at hok
      simp only [Bool.and_eq_true, beq_iff_eq] at hok
      exact ⟨hok.1.1, hok.1.2⟩
    | succ j =>
      simp only [List.getD_cons_succ] at hg
      exact ih j t (rowOkB_cons_tail hok) hg

/-- Overwriting a slot with a leaf keeps the shape invariant. -/
theorem rowOkB_set_pair {V : Type} :
    ∀ (tbl : List (Option (RCell V))) (i : Nat) (k : Key) (v : V),
    rowOkB tbl = true → rowOkB (tbl.set i (some (.pair k v))) = true := by
  intro tbl
  induction tbl with
  | nil => intro i k v h; exact h
  | cons c rest ih =>
    intro i k v hok
    have hok' : rowOkB rest = true := rowOkB_cons_tail hok
    cases i with
    | zero =>
      rw [List.set_cons_zero, rowOkB_cons_pair]
      exact hok'
    | succ j =>
      rw [List.set_cons_succ]
      cases c with
      | none => rw [rowOkB_cons_none]; exact ih j k v hok'
      | some cc =>
        cases cc with
        | pair k0 v0 => rw [rowOkB_cons_pair]; exact ih j k v hok'
        | sub t2 =>
          rw [rowOkB_cons_sub] at hok ⊢
          simp only [Bool.and_eq_true] at hok ⊢
          exact ⟨hok.1, ih j k v hok'⟩

/-- Overwriting a slot with a dimension-checked sub-node keeps the shape
invariant. -/
theorem rowOkB_set_sub {V : Type} :
    ∀ (tbl : List (Option (RCell V))) (i : Nat) (t : List (Option (RCell V))),
    rowOkB tbl = true → t.length = 27 → rowOkB t = true →
    rowOkB (tbl.set i (some (.sub t))) = true := by
  intro tbl
  induction tbl with
  | nil => intro i t h _ _; exact h
  | cons c rest ih =>
    intro i t hok hl ht
    have hok' : rowOkB rest = true := rowOkB_cons_tail hok
    cases i with
    | zero =>
      rw [List.set_cons_zero, rowOkB_cons_sub]
      simp only [Bool.and_eq_true, beq_iff_eq]
      exact ⟨⟨hl, ht⟩, hok'⟩
    | succ j =>
      rw [List.set_cons_succ]
      cases c with
      | none => rw [rowOkB_cons_none]; exact ih j t hok' hl ht
      | some cc =>
        cases cc with
        | pair k0 v0 => rw [rowOkB_cons_pair]; exact ih j t hok' hl ht
        | sub t2 =>
          rw [rowOkB_cons_sub] at hok ⊢
          simp only [Bool.and_eq_true] at hok ⊢
          exact ⟨hok.1, ih j t hok' hl ht⟩

/-- For a two-entry pending list, `get_level`'s distinctness test is exactly
the inequality of the two hash positions. -/
theorem rstDistinct_pair {V : Type} (lvl : Nat) (k0 k : Key) (v0 v : V) :
    rstDistinct lvl [(k0, v0), (k, v)] = true ↔
      rstHashAt lvl k0 ≠ rstHashAt lvl k := by
  unfold rstDistinct natListDistinct
  simp [natListDistinct]

theorem list_sizeOf_pos {α : Type} [SizeOf α] (l : List α) : 0 < sizeOf l := by
  cases l <;> simp_arith

theorem rstLookup_none {V : Type} {k : Key} {tbl : List (Option (RCell V))}
    {lvl : Nat} (h : tbl.getD (rstHashAt lvl k) none = none) :
    rstLookup k tbl lvl = none := by
  rw [rstLookup]
  split
  · rfl
  all_goals (rename_i heq; rw [h] at heq; exact Option.noConfusion heq)

theorem rstLookup_pair {V : Type} {k k0 : Key} {v0 : V}
    {tbl : List (Option (RCell V))} {lvl : Nat}
    (h : tbl.getD (rstHashAt lvl k) none = some (.pair k0 v0)) :
    rstLookup k tbl lvl = if k0 = k then some v0 else none := by
  rw [rstLookup]
  split
  · rename_i heq; rw [h] at heq; exact Option.noConfusion heq
  · rename_i k1 v1 heq
    rw [h] at heq
    injection heq with heq2
    cases heq2
    rfl
  · rename_i t heq
    rw [h] at heq
    injection heq with heq2
    exact RCell.noConfusion heq2

theorem rstLookup_sub {V : Type} {k : Key} {t : List (Option (RCell V))}
    {tbl : List (Option (RCell V))} {lvl : Nat}
    (h : tbl.getD (rstHashAt lvl k) none = some (.sub t)) :
    rstLookup k tbl lvl = rstLookup k t (lvl + 1) := by
  rw [rstLookup]
  split
  · rename_i heq; rw [h] at heq; exact Option.noConfusion heq
  · rename_i k1 v1 heq
    rw [h] at heq
    injection heq with heq2
    exact RCell.noConfusion heq2
  · rename_i t2 heq
    rw [h] at heq
    injection heq with heq2
    injection heq2 with heq3
    cases heq3
    rfl

theorem rstLocGo_none {V : Type} {k : Key} {lvl : Nat}
    {tbl : List (Option (RCell V))}
    (h : tbl.getD (rstHashAt lvl k) none = none) :
    rstLocGo k lvl tbl = (.error .keyNotFound, 0) := by
  rw [rstLocGo]
  split
  · rfl
  all_goals (rename_i heq; rw [h] at heq; exact Option.noConfusion heq)

theorem rstLocGo_pair {V : Type} {k k0 : Key} {v0 : V} {lvl : Nat}
    {tbl : List (Option (RCell V))}
    (h : tbl.getD (rstHashAt lvl k) none = some (.pair k0 v0)) :
    rstLocGo k lvl tbl =
      (if k0 = k then (.ok [rstHashAt lvl k], 0)
       else (.error .keyNotFound, lvl)) := by
  rw [rstLocGo]
  split
  · rename_i heq; rw [h] at heq; exact Option.noConfusion heq
  · rename_i k1 v1 heq
    rw [h] at heq
    injection heq with heq2
    cases heq2
    rfl
  · rename_i t heq
    rw [h] at heq
    injection heq with heq2
    exact RCell.noConfusion heq2

theorem rstLocGo_sub {V : Type} {k : Key} {lvl : Nat}
    {t tbl : List (Option (RCell V))}
    (h : tbl.getD (rstHashAt lvl k) none = some (.sub t)) :
    rstLocGo k lvl tbl =
      (match rstLocGo k (lvl + 1) t with
       | (.ok rest, l) => (.ok (rstHashAt lvl k :: rest), l)
       | (.error e, l) => (.error e, l)) := by
  rw [rstLocGo]
  split
  · rename_i heq; rw [h] at heq; exact Option.noConfusion heq
  · rename_i k1 v1 heq
    rw [h] at heq
    injection heq with heq2
    exact RCell.noConfusion heq2
  · rename_i t2 heq
    rw [h] at heq
    injection heq with heq2
    injection heq2 with heq3
    cases heq3
    rfl

theorem rstSetGo_none {V : Type} {fuel : Nat} {k : Key} {v : V} {lvl : Nat}
    {tbl : List (Option (RCell V))}
    (h : tbl.getD (rstHashAt lvl k) none = none) :
    rstSetGo fuel k v lvl tbl =
      some (tbl.set (rstHashAt lvl k) (some (.pair k v)), 1) := by
  rw [rstSetGo]
  split
  · rfl
  all_goals (rename_i heq; rw [h] at heq; exact Option.noConfusion heq)

theorem rstSetGo_pair {V : Type} {fuel : Nat} {k k0 : Key} {v v0 : V}
    {lvl : Nat} {tbl : List (Option (RCell V))}
    (h : tbl.getD (rstHashAt lvl k) none = some (.pair k0 v0)) :
    rstSetGo fuel k v lvl tbl =
      (if k0 = k then some (tbl.set (rstHashAt lvl k) (some (.pair k v)), 0)
       else
        match rstChain fuel (lvl + 1) k [(k0, v0), (k, v)] with
        | none => none
        | some sub =>
          some (tbl.set (rstHashAt lvl k) (some (.sub sub)), 1)) := by
  rw [rstSetGo]
  split
  · rename_i heq; rw [h] at heq; exact Option.noConfusion heq
  · rename_i k1 v1 heq
    rw [h] at heq
    injection heq with heq2
    cases heq2
    rfl
  · rename_i t heq
    rw [h] at heq
    injection heq with heq2
    exact RCell.noConfusion heq2

theorem rstSetGo_sub {V : Type} {fuel : Nat} {k : Key} {v : V} {lvl : Nat}
    {t tbl : List (Option (RCell V))}
    (h : tbl.getD (rstHashAt lvl k) none = some (.sub t)) :
    rstSetGo fuel k v lvl tbl =
      (match rstSetGo fuel k v (lvl + 1) t with
       | none => none
       | some td => some (tbl.set (rstHashAt lvl k) (some (.sub td.1)), td.2)) := by
  rw [rstSetGo]
  split
  · rename_i heq; rw [h] at heq; exact Option.noConfusion heq
  · rename_i k1 v1 heq
    rw [h] at heq
    injection heq with heq2
    exact RCell.noConfusion heq2
  · rename_i t2 heq
    rw [h] at heq
    injection heq with heq2
    injection heq2 with heq3
    cases heq3
    rfl

/-- `get_location` followed by the index walk of `__getitem__` agrees with
the abstract lookup: either both find the key's value, or both fail. -/
theorem rstLoc_lookup {V : Type} (k : Key) :
    ∀ (n : Nat) (tbl : List (Option (RCell V))), sizeOf tbl ≤ n → ∀ (lvl : Nat),
    (∃ path v, (rstLocGo k lvl tbl).1 = .ok path ∧
      rstFollowPath tbl path = some (k, v) ∧ rstLookup k tbl lvl = some v) ∨
    ((rstLocGo k lvl tbl).1 = .error .keyNotFound ∧ rstLookup k tbl lvl = none) := by
  intro n
  induction n with
  | zero =>
    intro tbl hsz
    exact absurd hsz (by have := list_sizeOf_pos tbl; omega)
  | succ m ih =>
    intro tbl hsz lvl
    cases hslot : tbl.getD (rstHashAt lvl k) none with
    | none =>
      right
      rw [rstLocGo_none hslot, rstLookup_none hslot]
      exact ⟨rfl, rfl⟩
    | some c =>
      cases c with
      | pair k0 v0 =>
        by_cases hk : k0 = k
        · left
          refine ⟨[rstHashAt lvl k], v0, ?_, ?_, ?_⟩
          · rw [rstLocGo_pair hslot, if_pos hk]
          · show (match tbl.getD (rstHashAt lvl k) none with
              | some (.pair k2 v2) => some (k2, v2)
              | _ => none) = some (k, v0)
            rw [hslot, hk]
          · rw [rstLookup_pair hslot, if_pos hk]
        · right
          rw [rstLocGo_pair hslot, if_neg hk, rstLookup_pair hslot, if_neg hk]
          exact ⟨rfl, rfl⟩
      | sub t =>
        have hszt : sizeOf t ≤ m := by
          have := RCell.sizeOf_of_getD_sub hslot
          omega
        rcases ih t hszt (lvl + 1) with
          ⟨path, v, hok, hfol, hlook⟩ | ⟨herr, hlook⟩
        · left
          refine ⟨rstHashAt lvl k :: path, v, ?_, ?_, ?_⟩
          · rw [rstLocGo_sub hslot]
            cases hg : rstLocGo k (lvl + 1) t with
            | mk r l =>
              rw [hg] at hok
              simp only at hok
              subst hok
              rfl
          · cases path with
            | nil => exact absurd hfol (by rw [rstFollowPath]; simp)
            | cons i rest =>
              show (match tbl.getD (rstHashAt lvl k) none with
                | some (.sub t2) => rstFollowPath t2 (i :: rest)
                | _ => none) = some (k, v)
              rw [hslot]
              exact hfol
          · rw [rstLookup_sub hslot]
            exact hlook
        · right
          constructor
          · rw [rstLocGo_sub hslot]
            cases hg : rstLocGo k (lvl + 1) t with
            | mk r l =>
              rw [hg] at herr
              simp only at herr
              cases r with
              | ok p => exact Except.noConfusion herr
              | error e =>
                injection herr with he
                subst he
                rfl
          · rw [rstLookup_sub hslot]
            exact hlook

/-- A positive abstract lookup makes `__getitem__` return that value. -/
theorem rstGet_of_lookup {V : Type} {s : RST V} {k : Key} {v : V}
    (h : rstLookup k s.array 0 = some v) : rstGet s k = .ok v := by
  rcases rstLoc_lookup k (sizeOf s.array) s.array le_rfl 0 with
    ⟨path, v', hok, hfol, hlook⟩ | ⟨_, hlook⟩
  · rw [h] at hlook
    injection hlook with hv
    subst hv
    unfold rstGet rstGetS rstGetLocation
    cases hg : rstLocGo k 0 s.array with
    | mk r l =>
      rw [hg] at hok
      simp only at hok
      subst hok
      simp only [hfol]
  · rw [h] at hlook
    exact Option.noConfusion hlook

/-- A failed abstract lookup makes `__getitem__` raise `KeyNotFound`. -/
theorem rstGet_of_lookup_none {V : Type} {s : RST V} {k : Key}
    (h : rstLookup k s.array 0 = none) :
    rstGet s k = .error .keyNotFound := by
  rcases rstLoc_lookup k (sizeOf s.array) s.array le_rfl 0 with
    ⟨path, v', hok, hfol, hlook⟩ | ⟨herr, hlook⟩
  · rw [h] at hlook
    exact Option.noConfusion hlook
  · unfold rstGet rstGetS rstGetLocation
    cases hg : rstLocGo k 0 s.array with
    | mk r l =>
      rw [hg] at herr
      simp only at herr
      subst herr
      rfl

/-- A lookup only inspects the slot at the key's hash position, so equal
slots give equal lookups. -/
theorem rstLookup_congr {V : Type} {k : Key} {lvl : Nat}
    {t1 t2 : List (Option (RCell V))}
    (h : t1.getD (rstHashAt lvl k) none = t2.getD (rstHashAt lvl k) none) :
    rstLookup k t1 lvl = rstLookup k t2 lvl := by
  cases hv : t2.getD (rstHashAt lvl k) none with
  | none => rw [rstLookup_none (h.trans hv), rstLookup_none hv]
  | some c =>
    cases c with
    | pair k0 v0 => rw [rstLookup_pair (h.trans hv), rstLookup_pair hv]
    | sub t => rw [rstLookup_sub (h.trans hv), rstLookup_sub hv]

/-- The node built by the collision-splitting loop for a displaced leaf and
a new entry (distinct keys): both pending entries become retrievable at the
node's level, every other key misses, and the node is dimension-checked. -/
theorem rstChain_lookup {V : Type} {k0 k : Key} {v0 v : V} (hne : k0 ≠ k) :
    ∀ (fuel lvl : Nat) (sub : List (Option (RCell V))),
    rstChain fuel lvl k [(k0, v0), (k, v)] = some sub →
    sub.length = 27 ∧ rowOkB sub = true ∧
    rstLookup k sub lvl = some v ∧ rstLookup k0 sub lvl = some v0 ∧
    (∀ k2, k2 ≠ k → k2 ≠ k0 → rstLookup k2 sub lvl = none) := by
  intro fuel
  induction fuel with
  | zero => intro lvl sub h; exact Option.noConfusion h
  | succ f ih =>
    intro lvl sub h
    rw [rstChain] at h
    by_cases hd : rstDistinct lvl [(k0, v0), (k, v)] = true
    · rw [if_pos hd] at h
      injection h with hsub
      have hdiff := (rstDistinct_pair lvl k0 k v0 v).1 hd
      have hfold : (([(k0, v0), (k, v)] : List (Key × V)).foldl
          (fun tb kv => tb.set (rstHashAt lvl kv.1) (some (.pair kv.1 kv.2)))
          (rstEmptyTable V))
          = ((rstEmptyTable V).set (rstHashAt lvl k0) (some (.pair k0 v0))).set
              (rstHashAt lvl k) (some (.pair k v)) := rfl
      rw [hfold] at hsub
      subst hsub
      have hlen0 : (rstEmptyTable V).length = 27 := by
        show (List.replicate 27 _).length = 27
        rw [List.length_replicate]
      have hlen1 : (((rstEmptyTable V).set (rstHashAt lvl k0)
          (some (.pair k0 v0)))).length = 27 := by
        rw [List.length_set, hlen0]
      refine ⟨by rw [List.length_set, hlen1], ?_, ?_, ?_, ?_⟩
      · exact rowOkB_set_pair _ _ _ _ (rowOkB_set_pair _ _ _ _ (rowOkB_replicate 27))
      · have hget : ((((rstEmptyTable V).set (rstHashAt lvl k0)
            (some (.pair k0 v0)))).set
            (rstHashAt lvl k) (some (.pair k v))).getD (rstHashAt lvl k) none
            = some (.pair k v) :=
          getD_set_self _ _ _ _ (by rw [hlen1]; exact rstHashAt_lt lvl k)
        rw [rstLookup_pair hget, if_pos rfl]
      · have hget : ((((rstEmptyTable V).set (rstHashAt lvl k0)
            (some (.pair k0 v0)))).set
            (rstHashAt lvl k) (some (.pair k v))).getD (rstHashAt lvl k0) none
            = some (.pair k0 v0) := by
          rw [getD_set_other _ _ _ _ _ (fun he => hdiff he.symm)]
          exact getD_set_self _ _ _ _ (by rw [hlen0]; exact rstHashAt_lt lvl k0)
        rw [rstLookup_pair hget, if_pos rfl]
      · intro k2 h2k h2k0
        by_cases hpk : rstHashAt lvl k2 = rstHashAt lvl k
        · have hget : ((((rstEmptyTable V).set (rstHashAt lvl k0)
              (some (.pair k0 v0)))).set
              (rstHashAt lvl k) (some (.pair k v))).getD (rstHashAt lvl k2) none
              = some (.pair k v) := by
            rw [hpk]
            exact getD_set_self _ _ _ _ (by rw [hlen1]; exact rstHashAt_lt lvl k)
          rw [rstLookup_pair hget, if_neg (fun he => h2k he.symm)]
        · by_cases hpk0 : rstHashAt lvl k2 = rstHashAt lvl k0
          · have hget : ((((rstEmptyTable V).set (rstHashAt lvl k0)
                (some (.pair k0 v0)))).set
                (rstHashAt lvl k) (some (.pair k v))).getD
                  (rstHashAt lvl k2) none
                = some (.pair k0 v0) := by
              rw [getD_set_other _ _ _ _ _ (fun he => hpk he.symm), hpk0]
              exact getD_set_self _ _ _ _
                (by rw [hlen0]; exact rstHashAt_lt lvl k0)
            rw [rstLookup_pair hget, if_neg (fun he => h2k0 he.symm)]
          · have hget : ((((rstEmptyTable V).set (rstHashAt lvl k0)
                (some (.pair k0 v0)))).set
                (rstHashAt lvl k) (some (.pair k v))).getD
                  (rstHashAt lvl k2) none = none := by
              rw [getD_set_other _ _ _ _ _ (fun he => hpk he.symm),
                getD_set_other _ _ _ _ _ (fun he => hpk0 he.symm)]
              exact getD_replicate_lt 27 _ _ _ (rstHashAt_lt lvl k2)
            exact rstLookup_none hget
    · rw [if_neg hd] at h
      have heq : rstHashAt lvl k0 = rstHashAt lvl k := by
        by_contra hcon
        exact hd ((rstDistinct_pair lvl k0 k v0 v).2 hcon)
      cases hc : rstChain f (lvl + 1) k [(k0, v0), (k, v)] with
      | none => rw [hc] at h; exact Option.noConfusion h
      | some t =>
        rw [hc] at h
        injection h with hsub
        subst hsub
        obtain ⟨hlt, hok, hlk, hlk0, hmiss⟩ := ih (lvl + 1) t hc
        have hlen0 : (rstEmptyTable V).length = 27 := by
          show (List.replicate 27 _).length = 27
          rw [List.length_replicate]
        have hgetk : ((rstEmptyTable V).set (rstHashAt lvl k)
            (some (.sub t))).getD (rstHashAt lvl k) none = some (.sub t) :=
          getD_set_self _ _ _ _ (by rw [hlen0]; exact rstHashAt_lt lvl k)
        refine ⟨by rw [List.length_set, hlen0], ?_, ?_, ?_, ?_⟩
        · exact rowOkB_set_sub _ _ _ (rowOkB_replicate 27) hlt hok
        · rw [rstLookup_sub hgetk]
          exact hlk
        · have hgetk0 : ((rstEmptyTable V).set (rstHashAt lvl k)
              (some (.sub t))).getD (rstHashAt lvl k0) none = some (.sub t) := by
            rw [heq]
            exact hgetk
          rw [rstLookup_sub hgetk0]
          exact hlk0
        · intro k2 h2k h2k0
          by_cases hpk : rstHashAt lvl k2 = rstHashAt lvl k
          · have hget2 : ((rstEmptyTable V).set (rstHashAt lvl k)
                (some (.sub t))).getD (rstHashAt lvl k2) none
                = some (.sub t) := by
              rw [hpk]; exact hgetk
            rw [rstLookup_sub hget2]
            exact hmiss k2 h2k h2k0
          · have hget2 : ((rstEmptyTable V).set (rstHashAt lvl k)
                (some (.sub t))).getD (rstHashAt lvl k2) none = none := by
              rw [getD_set_other _ _ _ _ _ (fun he => hpk he.symm)]
              exact getD_replicate_lt 27 _ _ _ (rstHashAt_lt lvl k2)
            exact rstLookup_none hget2

/-- The descent of `__setitem__`, run to success on a dimension-checked
node, keeps the shape, makes the inserted key retrievable at that node's
level and leaves every other key's lookup unchanged. -/
theorem rstSetGo_lookup {V : Type} (k : Key) (v : V) :
    ∀ (n : Nat) (tbl : List (Option (RCell V))), sizeOf tbl ≤ n →
    ∀ (fuel lvl : Nat) (tbl' : List (Option (RCell V))) (d : Nat),
    rowOkB tbl = true → tbl.length = 27 →
    rstSetGo fuel k v lvl tbl = some (tbl', d) →
    tbl'.length = 27 ∧ rowOkB tbl' = true ∧
    rstLookup k tbl' lvl = some v ∧
    (∀ k2, k2 ≠ k → rstLookup k2 tbl' lvl = rstLookup k2 tbl lvl) := by
  intro n
  induction n with
  | zero =>
    intro tbl hsz
    exact absurd hsz (by have := list_sizeOf_pos tbl; omega)
  | succ m ih =>
    intro tbl hsz fuel lvl tbl' d hok hlen hset
    have hpos : rstHashAt lvl k < tbl.length := by
      rw [hlen]; exact rstHashAt_lt lvl k
    cases hslot : tbl.getD (rstHashAt lvl k) none with
    | none =>
      rw [rstSetGo_none hslot] at hset
      injection hset with hset2
      have ht' : tbl' = tbl.set (rstHashAt lvl k) (some (.pair k v)) :=
        (congrArg Prod.fst hset2).symm
      subst ht'
      refine ⟨by rw [List.length_set, hlen], rowOkB_set_pair _ _ _ _ hok, ?_, ?_⟩
      · rw [rstLookup_pair (getD_set_self _ _ _ _ hpos), if_pos rfl]
      · intro k2 h2k
        by_cases hp2 : rstHashAt lvl k2 = rstHashAt lvl k
        · have hnew : (tbl.set (rstHashAt lvl k)
              (some (.pair k v))).getD (rstHashAt lvl k2) none
              = some (.pair k v) := by
            rw [hp2]; exact getD_set_self _ _ _ _ hpos
          have hold : tbl.getD (rstHashAt lvl k2) none = none := by
            rw [hp2]; exact hslot
          rw [rstLookup_pair hnew, if_neg (fun he => h2k he.symm),
            rstLookup_none hold]
        · exact rstLookup_congr
            (getD_set_other _ _ _ _ _ (fun he => hp2 he.symm))
    | some c =>
      cases c with
      | pair k0 v0 =>
        rw [rstSetGo_pair hslot] at hset
        by_cases hk : k0 = k
        · rw [if_pos hk] at hset
          injection hset with hset2
          have ht' : tbl' = tbl.set (rstHashAt lvl k) (some (.pair k v)) :=
            (congrArg Prod.fst hset2).symm
          subst ht'
          refine ⟨by rw [List.length_set, hlen],
            rowOkB_set_pair _ _ _ _ hok, ?_, ?_⟩
          · rw [rstLookup_pair (getD_set_self _ _ _ _ hpos), if_pos rfl]
          · intro k2 h2k
            by_cases hp2 : rstHashAt lvl k2 = rstHashAt lvl k
            · have hnew : (tbl.set (rstHashAt lvl k)
                  (some (.pair k v))).getD (rstHashAt lvl k2) none
                  = some (.pair k v) := by
                rw [hp2]; exact getD_set_self _ _ _ _ hpos
              have hold : tbl.getD (rstHashAt lvl k2) none
                  = some (.pair k0 v0) := by
                rw [hp2]; exact hslot
              rw [rstLookup_pair hnew, if_neg (fun he => h2k he.symm),
                rstLookup_pair hold,
                if_neg (fun he => h2k (hk ▸ he).symm)]
            · exact rstLookup_congr
                (getD_set_other _ _ _ _ _ (fun he => hp2 he.symm))
        · rw [if_neg hk] at hset
          cases hc : rstChain fuel (lvl + 1) k [(k0, v0), (k, v)] with
          | none => rw [hc] at hset; exact Option.noConfusion hset
          | some sub =>
            rw [hc] at hset
            injection hset with hset2
            have ht' : tbl' = tbl.set (rstHashAt lvl k) (some (.sub sub)) :=
              (congrArg Prod.fst hset2).symm
            subst ht'
            obtain ⟨hlsub, hoksub, hlk, hlk0, hmiss⟩ := rstChain_lookup hk _ _ _ hc
            have hgetk : (tbl.set (rstHashAt lvl k)
                (some (.sub sub))).getD (rstHashAt lvl k) none
                = some (.sub sub) := getD_set_self _ _ _ _ hpos
            refine ⟨by rw [List.length_set, hlen],
              rowOkB_set_sub _ _ _ hok hlsub hoksub, ?_, ?_⟩
            · rw [rstLookup_sub hgetk]
              exact hlk
            · intro k2 h2k
              by_cases hp2 : rstHashAt lvl k2 = rstHashAt lvl k
              · have hnew : (tbl.set (rstHashAt lvl k)
                    (some (.sub sub))).getD (rstHashAt lvl k2) none
                    = some (.sub sub) := by
                  rw [hp2]; exact hgetk
                have hold : tbl.getD (rstHashAt lvl k2) none
                    = some (.pair k0 v0) := by
                  rw [hp2]; exact hslot
                rw [rstLookup_sub hnew, rstLookup_pair hold]
                by_cases h20 : k2 = k0
                · rw [if_pos (h20.symm), h20]
                  exact hlk0
                · rw [if_neg (fun he => h20 he.symm)]
                  exact hmiss k2 h2k h20
              · exact rstLookup_congr
                  (getD_set_other _ _ _ _ _ (fun he => hp2 he.symm))
      | sub t =>
        rw [rstSetGo_sub hslot] at hset
        cases hrec : rstSetGo fuel k v (lvl + 1) t with
        | none => rw [hrec] at hset; exact Option.noConfusion hset
        | some td =>
          rw [hrec] at hset
          injection hset with hset2
          have ht' : tbl' = tbl.set (rstHashAt lvl k) (some (.sub td.1)) :=
            (congrArg Prod.fst hset2).symm
          subst ht'
          obtain ⟨hlt, hokt⟩ := rowOkB_getD_sub tbl _ t hok hslot
          have hszt : sizeOf t ≤ m := by
            have := RCell.sizeOf_of_getD_sub hslot
            omega
          obtain ⟨hl', hok', hlk', hfr'⟩ :=
            ih t hszt fuel (lvl + 1) td.1 td.2 hokt hlt
              (by rw [hrec])
          have hgetk : (tbl.set (rstHashAt lvl k)
              (some (.sub td.1))).getD (rstHashAt lvl k) none
              = some (.sub td.1) := getD_set_self _ _ _ _ hpos
          refine ⟨by rw [List.length_set, hlen],
            rowOkB_set_sub _ _ _ hok hl' hok', ?_, ?_⟩
          · rw [rstLookup_sub hgetk]
            exact hlk'
          · intro k2 h2k
            by_cases hp2 : rstHashAt lvl k2 = rstHashAt lvl k
            · have hnew : (tbl.set (rstHashAt lvl k)
                  (some (.sub td.1))).getD (rstHashAt lvl k2) none
                  = some (.sub td.1) := by
                rw [hp2]; exact hgetk
              have hold : tbl.getD (rstHashAt lvl k2) none
                  = some (.sub t) := by
                rw [hp2]; exact hslot
              rw [rstLookup_sub hnew, rstLookup_sub hold]
              exact hfr' k2 h2k
            · exact rstLookup_congr
                (getD_set_other _ _ _ _ _ (fun he => hp2 he.symm))

/-- A successful `__setitem__` from a resting state (cursor at level 0)
keeps the shape invariant, resets the cursor, makes the key retrievable and
leaves every other key's lookup unchanged. -/
theorem rstSetF_lookup {V : Type} {s s' : RST V} {k : Key} {v : V}
    {fuel : Nat} (hok : rowOkB s.array = true) (hlen : s.array.length = 27)
    (hlvl : s.level = 0) (hset : rstSetF fuel s k v = some s') :
    rowOkB s'.array = true ∧ s'.array.length = 27 ∧ s'.level = 0 ∧
    rstLookup k s'.array 0 = some v ∧
    (∀ k2, k2 ≠ k → rstLookup k2 s'.array 0 = rstLookup k2 s.array 0) := by
  unfold rstSetF at hset
  cases hgo : rstSetGo fuel k v s.level s.array with
  | none => rw [hgo] at hset; exact Option.noConfusion hset
  | some ad =>
    rw [hgo] at hset
    simp only at hset
    rw [hlvl] at hgo
    obtain ⟨hl', hok', hlk', hfr'⟩ :=
      rstSetGo_lookup k v (sizeOf s.array) s.array le_rfl fuel 0 ad.1 ad.2
        hok hlen hgo
    injection hset with hs'
    subst hs'
    exact ⟨hok', hl', rfl, hlk', hfr'⟩

/-- A sequence of `__setitem__` calls on a fresh infinite hash table, each
given the same splitting fuel. -/
def rstRun (V : Type) (fuel : Nat) (ops : List (Key × V)) : Option (RST V) :=
  ops.foldl (fun acc kv =>
    match acc with
    | none => none
    | some s => rstSetF fuel s kv.1 kv.2) (some (rstNew V))

theorem rstRun_step_none {V : Type} (fuel : Nat) (ops : List (Key × V)) :
    (ops.foldl (fun (acc : Option (RST V)) kv =>
      match acc with
      | none => none
      | some s => rstSetF fuel s kv.1 kv.2) none) = none := by
  induction ops with
  | nil => rfl
  | cons kv rest ih => simpa using ih

theorem rstRunAux {V : Type} (fuel : Nat) :
    ∀ (ops : List (Key × V)) (acc t : RST V),
    rowOkB acc.array = true → acc.array.length = 27 → acc.level = 0 →
    (ops.map Prod.fst).Nodup →
    (ops.foldl (fun (a : Option (RST V)) kv =>
      match a with
      | none => none
      | some s => rstSetF fuel s kv.1 kv.2) (some acc)) = some t →
    rowOkB t.array = true ∧ t.array.length = 27 ∧ t.level = 0 ∧
    (∀ kv ∈ ops, rstLookup kv.1 t.array 0 = some kv.2) ∧
    (∀ k2, k2 ∉ ops.map Prod.fst →
      rstLookup k2 t.array 0 = rstLookup k2 acc.array 0) := by
  intro ops
  induction ops with
  | nil =>
    intro acc t hok hlen hlvl _ hrun
    injection hrun with ht
    subst ht
    exact ⟨hok, hlen, hlvl, by simp, fun _ _ => rfl⟩
  | cons kv rest ih =>
    intro acc t hok hlen hlvl hnd hrun
    simp only [List.foldl_cons] at hrun
    cases hstep : rstSetF fuel acc kv.1 kv.2 with
    | none =>
      rw [hstep] at hrun
      rw [rstRun_step_none] at hrun
      exact Option.noConfusion hrun
    | some acc1 =>
      rw [hstep] at hrun
      obtain ⟨hok1, hlen1, hlvl1, hlk1, hfr1⟩ :=
        rstSetF_lookup hok hlen hlvl hstep
      have hnd' : (rest.map Prod.fst).Nodup := by
        simp only [List.map_cons, List.nodup_cons] at hnd
        exact hnd.2
      have hknot : kv.1 ∉ rest.map Prod.fst := by
        simp only [List.map_cons, List.nodup_cons] at hnd
        exact hnd.1
      obtain ⟨hokt, hlent, hlvlt, hmem, hfrt⟩ :=
        ih acc1 t hok1 hlen1 hlvl1 hnd' hrun
      refine ⟨hokt, hlent, hlvlt, ?_, ?_⟩
      · intro kv' hkv'
        rcases List.mem_cons.1 hkv' with he | hm
        · subst he
          rw [hfrt kv'.1 hknot]
          exact hlk1
        · exact hmem kv' hm
      · intro k2 h2
        simp only [List.map_cons, List.mem_cons] at h2
        push_neg at h2
        rw [hfrt k2 h2.2]
        exact hfr1 k2 h2.1

/-- Round-trip of the infinite hash table: after a completed sequence of
inserts with pairwise distinct keys, every inserted key reads back its
value. -/
theorem rstRun_roundtrip {V : Type} {fuel : Nat} {ops : List (Key × V)}
    {t : RST V} (hnd : (ops.map Prod.fst).Nodup)
    (hrun : rstRun V fuel ops = some t) :
    ∀ kv ∈ ops, rstGet t kv.1 = .ok kv.2 := by
  have hok : rowOkB (rstNew V).array = true := rowOkB_replicate 27
  have hlen : (rstNew V).array.length = 27 := by
    show (List.replicate 27 _).length = 27
    rw [List.length_replicate]
  obtain ⟨_, _, _, hmem, _⟩ :=
    rstRunAux fuel ops (rstNew V) t hok hlen rfl hnd hrun
  intro kv hkv
  exact rstGet_of_lookup (hmem kv hkv)

/-- The path returned by `get_location` is exactly the key's hash at each
successive depth: slot `i` of the path is character `i`'s slot (or the
terminal slot once the key is exhausted). -/
theorem rstLocGo_path {V : Type} (k : Key) :
    ∀ (n : Nat) (tbl : List (Option (RCell V))), sizeOf tbl ≤ n →
    ∀ (lvl : Nat) (path : List Nat) (l : Nat),
    rstLocGo k lvl tbl = (.ok path, l) →
    path ≠ [] ∧ ∀ i < path.length, path.getD i 0 = rstHashAt (lvl + i) k := by
  intro n
  induction n with
  | zero =>
    intro tbl hsz
    exact absurd hsz (by have := list_sizeOf_pos tbl; omega)
  | succ m ih =>
    intro tbl hsz lvl path l hloc
    cases hslot : tbl.getD (rstHashAt lvl k) none with
    | none =>
      rw [rstLocGo_none hslot] at hloc
      injection hloc with h1 h2
      exact absurd h1.symm (Except.noConfusion)
    | some c =>
      cases c with
      | pair k0 v0 =>
        rw [rstLocGo_pair hslot] at hloc
        by_cases hk : k0 = k
        · rw [if_pos hk] at hloc
          injection hloc with h1 h2
          injection h1 with h1b
          subst h1b
          refine ⟨by simp, ?_⟩
          intro i hi
          simp only [List.length_cons, List.length_nil] at hi
          interval_cases i
          simp [rstHashAt]
        · rw [if_neg hk] at hloc
          injection hloc with h1 h2
          exact absurd h1.symm (Except.noConfusion)
      | sub t =>
        rw [rstLocGo_sub hslot] at hloc
        cases hrec : rstLocGo k (lvl + 1) t with
        | mk r l2 =>
          rw [hrec] at hloc
          cases r with
          | error e =>
            simp only at hloc
            injection hloc with h1 h2
            exact absurd h1.symm (Except.noConfusion)
          | ok rest =>
            simp only at hloc
            injection hloc with h1 h2
            injection h1 with h1b
            subst h1b
            have hszt : sizeOf t ≤ m := by
              have := RCell.sizeOf_of_getD_sub hslot
              omega
            obtain ⟨_, hrest⟩ := ih t hszt (lvl + 1) rest l2 hrec
            refine ⟨by simp, ?_⟩
            intro i hi
            cases i with
            | zero => simp
            | succ j =>
              simp only [List.length_cons] at hi
              have hj : j < rest.length := by omega
              show rest.getD j 0 = rstHashAt (lvl + (j + 1)) k
              rw [hrest j hj]
              congr 1
              omega

/-- Joint descent: two distinct keys both located in the same table, whose
hashes agree on the first `d` depths, follow the same slots for `d` steps
and are both still inside sub-tables at depth `d`. -/
theorem rstLocGo_joint {V : Type} (k k2 : Key) (hne : k ≠ k2) :
    ∀ (d : Nat) (tbl : List (Option (RCell V))) (lvl : Nat)
      (path path2 : List Nat) (l l2 : Nat),
    rstLocGo k lvl tbl = (.ok path, l) →
    rstLocGo k2 lvl tbl = (.ok path2, l2) →
    (∀ j < d, rstHashAt (lvl + j) k = rstHashAt (lvl + j) k2) →
    d < path.length ∧ d < path2.length ∧ path.take d = path2.take d := by
  intro d
  induction d with
  | zero =>
    intro tbl lvl path path2 l l2 hloc hloc2 _
    obtain ⟨hp, _⟩ := rstLocGo_path k (sizeOf tbl) tbl le_rfl lvl path l hloc
    obtain ⟨hp2, _⟩ := rstLocGo_path k2 (sizeOf tbl) tbl le_rfl lvl path2 l2 hloc2
    exact ⟨List.length_pos.2 hp, List.length_pos.2 hp2, rfl⟩
  | succ e ih =>
    intro tbl lvl path path2 l l2 hloc hloc2 hagree
    have h0 : rstHashAt lvl k = rstHashAt lvl k2 := by
      have := hagree 0 (by omega)
      simpa using this
    cases hslot : tbl.getD (rstHashAt lvl k) none with
    | none =>
      rw [rstLocGo_none hslot] at hloc
      injection hloc with h1 _
      exact absurd h1.symm (Except.noConfusion)
    | some c =>
      cases c with
      | pair k0 v0 =>
        rw [rstLocGo_pair hslot] at hloc
        have hslot2 : tbl.getD (rstHashAt lvl k2) none = some (.pair k0 v0) := by
          rw [← h0]; exact hslot
        rw [rstLocGo_pair hslot2] at hloc2
        by_cases hk : k0 = k
        · by_cases hk2 : k0 = k2
          · exact absurd (hk ▸ hk2) hne
          · rw [if_neg hk2] at hloc2
            injection hloc2 with h1 _
            exact absurd h1.symm (Except.noConfusion)
        · rw [if_neg hk] at hloc
          injection hloc with h1 _
          exact absurd h1.symm (Except.noConfusion)
      | sub t =>
        rw [rstLocGo_sub hslot] at hloc
        have hslot2 : tbl.getD (rstHashAt lvl k2) none = some (.sub t) := by
          rw [← h0]; exact hslot
        rw [rstLocGo_sub hslot2] at hloc2
        cases hrec : rstLocGo k (lvl + 1) t with
        | mk r la =>
          rw [hrec] at hloc
          cases r with
          | error e2 =>
            simp only at hloc
            injection hloc with h1 _
            exact absurd h1.symm (Except.noConfusion)
          | ok rest =>
            simp only at hloc
            injection hloc with h1 _
            injection h1 with h1b
            subst h1b
            cases hrec2 : rstLocGo k2 (lvl + 1) t with
            | mk r2 lb =>
              rw [hrec2] at hloc2
              cases r2 with
              | error e2 =>
                simp only at hloc2
                injection hloc2 with h1 _
                exact absurd h1.symm (Except.noConfusion)
              | ok rest2 =>
                simp only at hloc2
                injection hloc2 with h1 _
                injection h1 with h1b
                subst h1b
                have hagree' : ∀ j < e,
                    rstHashAt (lvl + 1 + j) k = rstHashAt (lvl + 1 + j) k2 := by
                  intro j hj
                  have := hagree (j + 1) (by omega)
                  rw [show lvl + (j + 1) = lvl + 1 + j by omega] at this
                  exact this
                obtain ⟨hd1, hd2, htake⟩ :=
                  ih t (lvl + 1) rest rest2 la lb hrec hrec2 hagree'
                refine ⟨by simp; omega, by simp; omega, ?_⟩
                simp only [List.take_succ_cons, h0, htake]

/-! ## Termination of the collision-splitting loop -/

/-- All keys stored anywhere inside a nested node. -/
def keysIn {V : Type} : List (Option (RCell V)) → List Key
  | [] => []
  | none :: rest => keysIn rest
  | some (.pair k _) :: rest => k :: keysIn rest
  | some (.sub t) :: rest => keysIn t ++ keysIn rest
termination_by l => sizeOf l
decreasing_by all_goals (simp_wf; try omega)

theorem keysIn_nil {V : Type} : keysIn ([] : List (Option (RCell V))) = [] := by
  rw [keysIn]

theorem keysIn_cons_none {V : Type} (rest : List (Option (RCell V))) :
    keysIn (none :: rest) = keysIn rest := by
  rw [keysIn]

theorem keysIn_cons_pair {V : Type} (k : Key) (v : V)
    (rest : List (Option (RCell V))) :
    keysIn (some (.pair k v) :: rest) = k :: keysIn rest := by
  rw [keysIn]

theorem keysIn_cons_sub {V : Type} (t rest : List (Option (RCell V))) :
    keysIn (some (.sub t) :: rest) = keysIn t ++ keysIn rest := by
  rw [keysIn]

/-- A leaf key read out of a node is among the node's keys. -/
theorem keysIn_of_getD_pair {V : Type} :
    ∀ (tbl : List (Option (RCell V))) (i : Nat) (k : Key) (v : V),
    tbl.getD i none = some (.pair k v) → k ∈ keysIn tbl := by
  intro tbl
  induction tbl with
  | nil => intro i k v hg; simp [List.getD] at hg
  | cons c rest ih =>
    intro i k v hg
    cases i with
    | zero =>
      simp only [List.getD_cons_zero] at hg
      subst hg
      rw [keysIn_cons_pair]
      exact List.mem_cons_self _ _
    | succ j =>
      simp only [List.getD_cons_succ] at hg
      have hm := ih j k v hg
      cases c with
      | none => rw [keysIn_cons_none]; exact hm
      | some cc =>
        cases cc with
        | pair k0 v0 => rw [keysIn_cons_pair]; exact List.mem_cons_of_mem _ hm
        | sub t => rw [keysIn_cons_sub]; exact List.mem_append_right _ hm

/-- The keys of a sub-node are among the node's keys. -/
theorem keysIn_of_getD_sub {V : Type} :
    ∀ (tbl : List (Option (RCell V))) (i : Nat) (t : List (Option (RCell V))),
    tbl.getD i none = some (.sub t) → ∀ k ∈ keysIn t, k ∈ keysIn tbl := by
  intro tbl
  induction tbl with
  | nil => intro i t hg; simp [List.getD] at hg
  | cons c rest ih =>
    intro i t hg k hk
    cases i with
    | zero =>
      simp only [List.getD_cons_zero] at hg
      subst hg
      rw [keysIn_cons_sub]
      exact List.mem_append_left _ hk
    | succ j =>
      simp only [List.getD_cons_succ] at hg
      have hm := ih j t hg k hk
      cases c with
      | none => rw [keysIn_cons_none]; exact hm
      | some cc =>
        cases cc with
        | pair k0 v0 => rw [keysIn_cons_pair]; exact List.mem_cons_of_mem _ hm
        | sub t2 => rw [keysIn_cons_sub]; exact List.mem_append_right _ hm

/-- Hash-consistent placement: a leaf at slot `i` of a depth-`lvl` node
hashes to `i` at that depth, and every key inside a sub-node at slot `i`
hashes to `i` at that depth.  `lvl` is the node's depth, `i` the index of
the first slot of the remaining row. -/
def placedOkB {V : Type} : Nat → Nat → List (Option (RCell V)) → Bool
  | _, _, [] => true
  | lvl, i, none :: rest => placedOkB lvl (i + 1) rest
  | lvl, i, some (.pair k _) :: rest =>
    (rstHashAt lvl k == i) && placedOkB lvl (i + 1) rest
  | lvl, i, some (.sub t) :: rest =>
    (keysIn t).all (fun k => rstHashAt lvl k == i) &&
      placedOkB (lvl + 1) 0 t && placedOkB lvl (i + 1) rest
termination_by lvl i l => sizeOf l
decreasing_by all_goals (simp_wf; try omega)

theorem placedOkB_nil {V : Type} (lvl i : Nat) :
    placedOkB lvl i ([] : List (Option (RCell V))) = true := by
  rw [placedOkB]

theorem placedOkB_cons_none {V : Type} (lvl i : Nat)
    (rest : List (Option (RCell V))) :
    placedOkB lvl i (none :: rest) = placedOkB lvl (i + 1) rest := by
  rw [placedOkB]

theorem placedOkB_cons_pair {V : Type} (lvl i : Nat) (k : Key) (v : V)
    (rest : List (Option (RCell V))) :
    placedOkB lvl i (some (.pair k v) :: rest)
      = ((rstHashAt lvl k == i) && placedOkB lvl (i + 1) rest) := by
  rw [placedOkB]

theorem placedOkB_cons_sub {V : Type} (lvl i : Nat)
    (t rest : List (Option (RCell V))) :
    placedOkB lvl i (some (.sub t) :: rest)
      = ((keysIn t).all (fun k => rstHashAt lvl k == i) &&
          placedOkB (lvl + 1) 0 t && placedOkB lvl (i + 1) rest) := by
  rw [placedOkB]

/-- Reading a leaf out of a placed node: the leaf's key hashes to its slot. -/
theorem placedOkB_getD_pair {V : Type} :
    ∀ (tbl : List (Option (RCell V))) (lvl i j : Nat) (k : Key) (v : V),
    placedOkB lvl i tbl = true → tbl.getD j none = some (.pair k v) →
    rstHashAt lvl k = i + j := by
  intro tbl
  induction tbl with
  | nil => intro lvl i j k v _ hg; simp [List.getD] at hg
  | cons c rest ih =>
    intro lvl i j k v hok hg
    cases j with
    | zero =>
      simp only [List.getD_cons_zero] at hg
      subst hg
      rw [placedOkB_cons_pair] at hok
      simp only [Bool.and_eq_true, beq_iff_eq] at hok
      omega
    | succ j2 =>
      simp only [List.getD_cons_succ] at hg
      have hok' : placedOkB lvl (i + 1) rest = true := by
        cases c with
        | none => rw [placedOkB_cons_none] at hok; exact hok
        | some cc =>
          cases cc with
          | pair k0 v0 =>
            rw [placedOkB_cons_pair] at hok
            simp only [Bool.and_eq_true] at hok
            exact hok.2
          | sub t =>
            rw [placedOkB_cons_sub] at hok
            simp only [Bool.and_eq_true] at hok
            exact hok.2
      have := ih lvl (i + 1) j2 k v hok' hg
      omega

/-- Reading a sub-node out of a placed node: the sub-node is placed one
level deeper and all its keys hash to its slot. -/
theorem placedOkB_getD_sub {V : Type} :
    ∀ (tbl : List (Option (RCell V))) (lvl i j : Nat)
      (t : List (Option (RCell V))),
    placedOkB lvl i tbl = true → tbl.getD j none = some (.sub t) →
    placedOkB (lvl + 1) 0 t = true ∧
    ∀ k ∈ keysIn t, rstHashAt lvl k = i + j := by
  intro tbl
  induction tbl with
  | nil => intro lvl i j t _ hg; simp [List.getD] at hg
  | cons c rest ih =>
    intro lvl i j t hok hg
    cases j with
    | zero =>
      simp only [List.getD_cons_zero] at hg
      subst hg
      rw [placedOkB_cons_sub] at hok
      simp only [Bool.and_eq_true, List.all_eq_true, beq_iff_eq] at hok
      refine ⟨hok.1.2, ?_⟩
      intro k hk
      have := hok.1.1 k hk
      omega
    | succ j2 =>
      simp only [List.getD_cons_succ] at hg
      have hok' : placedOkB lvl (i + 1) rest = true := by
        cases c with
        | none => rw [placedOkB_cons_none] at hok; exact hok
        | some cc =>
          cases cc with
          | pair k0 v0 =>
            rw [placedOkB_cons_pair] at hok
            simp only [Bool.and_eq_true] at hok
            exact hok.2
          | sub t2 =>
            rw [placedOkB_cons_sub] at hok
            simp only [Bool.and_eq_true] at hok
            exact hok.2
      obtain ⟨h1, h2⟩ := ih lvl (i + 1) j2 t hok' hg
      refine ⟨h1, ?_⟩
      intro k hk
      have := h2 k hk
      omega

/-- The splitting loop terminates as soon as some level at or beyond the
current one separates the two pending keys. -/
theorem rstChain_total {V : Type} (k0 k : Key) (v0 v : V) :
    ∀ (n lvl : Nat), rstHashAt (lvl + n) k0 ≠ rstHashAt (lvl + n) k →
    ∃ sub, rstChain (n + 1) lvl k [(k0, v0), (k, v)] = some sub := by
  intro n
  induction n with
  | zero =>
    intro lvl hd
    rw [rstChain, if_pos ((rstDistinct_pair lvl k0 k v0 v).2 (by simpa using hd))]
    exact ⟨_, rfl⟩
  | succ m ih =>
    intro lvl hd
    by_cases hds : rstDistinct lvl [(k0, v0), (k, v)] = true
    · rw [rstChain, if_pos hds]
      exact ⟨_, rfl⟩
    · obtain ⟨sub, hsub⟩ := ih (lvl + 1)
        (by rw [show lvl + 1 + m = lvl + (m + 1) by omega]; exact hd)
      rw [rstChain, if_neg hds, hsub]
      exact ⟨_, rfl⟩

/-- In a hash-consistently placed table, the descent of `__setitem__`
terminates for every key that is hash-separated from each stored key: some
amount of fuel makes it succeed. -/
theorem rstSetGo_total {V : Type} (k : Key) (v : V) :
    ∀ (n : Nat) (tbl : List (Option (RCell V))), sizeOf tbl ≤ n →
    ∀ (lvl : Nat),
    placedOkB lvl 0 tbl = true →
    (∀ k0 ∈ keysIn tbl, k0 ≠ k → ∃ d, rstHashAt d k0 ≠ rstHashAt d k) →
    (∀ k0 ∈ keysIn tbl, ∀ j, j < lvl → rstHashAt j k0 = rstHashAt j k) →
    ∃ fuel td, rstSetGo fuel k v lvl tbl = some td := by
  intro n
  induction n with
  | zero =>
    intro tbl hsz
    exact absurd hsz (by have := list_sizeOf_pos tbl; omega)
  | succ m ih =>
    intro tbl hsz lvl hplaced hsep hagree
    cases hslot : tbl.getD (rstHashAt lvl k) none with
    | none => exact ⟨1, _, by rw [rstSetGo_none hslot]⟩
    | some c =>
      cases c with
      | pair k0 v0 =>
        by_cases hk : k0 = k
        · exact ⟨1, _, by rw [rstSetGo_pair hslot, if_pos hk]⟩
        · have hmem : k0 ∈ keysIn tbl := keysIn_of_getD_pair tbl _ k0 v0 hslot
          obtain ⟨d, hd⟩ := hsep k0 hmem hk
          have hat : rstHashAt lvl k0 = rstHashAt lvl k := by
            have := placedOkB_getD_pair tbl lvl 0 _ k0 v0 hplaced hslot
            omega
          have hdlvl : lvl < d := by
            rcases Nat.lt_trichotomy d lvl with hlt | heq | hgt
            · exact absurd (hagree k0 hmem d hlt) hd
            · exact absurd (heq ▸ hat) hd
            · exact hgt
          obtain ⟨sub, hsub⟩ := rstChain_total k0 k v0 v (d - (lvl + 1)) (lvl + 1)
            (by rw [show lvl + 1 + (d - (lvl + 1)) = d by omega]; exact hd)
          exact ⟨d - (lvl + 1) + 1, _,
            by rw [rstSetGo_pair hslot, if_neg hk, hsub]⟩
      | sub t =>
        have hszt : sizeOf t ≤ m := by
          have := RCell.sizeOf_of_getD_sub hslot
          omega
        obtain ⟨hplt, hcont⟩ :=
          placedOkB_getD_sub tbl lvl 0 _ t hplaced hslot
        have hsub' : ∀ k0 ∈ keysIn t, k0 ∈ keysIn tbl :=
          keysIn_of_getD_sub tbl _ t hslot
        obtain ⟨fuel, td, hrec⟩ := ih t hszt (lvl + 1) hplt
          (fun k0 hk0 => hsep k0 (hsub' k0 hk0))
          (by
            intro k0 hk0 j hj
            rcases Nat.lt_or_ge j lvl with hlt | hge
            · exact hagree k0 (hsub' k0 hk0) j hlt
            · have hjl : j = lvl := by omega
              subst hjl
              have := hcont k0 hk0
              omega)
        exact ⟨fuel, _, by rw [rstSetGo_sub hslot, hrec]⟩

/-- At every level the hashes of `[97]` and `[123]` coincide (both `19` at
level 0, both the terminal slot beyond), so `get_level` never separates
them and the splitting loop never finishes. -/
theorem rstHashAt_97_123 (lvl : Nat) :
    rstHashAt lvl [97] = rstHashAt lvl [123] := by
  cases lvl with
  | zero => decide
  | succ n =>
    unfold rstHashAt
    simp

theorem rstChain_97_123 {V : Type} (v0 v : V) :
    ∀ (fuel lvl : Nat),
    rstChain fuel lvl ([123] : Key) [(([97] : Key), v0), (([123] : Key), v)]
      = none := by
  intro fuel
  induction fuel with
  | zero => intro lvl; rw [rstChain]
  | succ f ih =>
    intro lvl
    have hnd : rstDistinct lvl [(([97] : Key), v0), (([123] : Key), v)]
        = false := by
      by_contra hcon
      have htrue : rstDistinct lvl [(([97] : Key), v0), (([123] : Key), v)]
          = true := by
        cases hb : rstDistinct lvl [(([97] : Key), v0), (([123] : Key), v)]
        · exact absurd hb hcon
        · rfl
      exact (rstDistinct_pair lvl [97] [123] v0 v).1 htrue (rstHashAt_97_123 lvl)
    rw [rstChain, hnd]
    simp only [Bool.false_eq_true, if_false]
    rw [ih (lvl + 1)]

/-! ## Concrete tables used by the examples -/

/-- Extract the success payload of a fallible operation (used to name the
concrete tables below). -/
def exceptD {α : Type} (d : α) : Except TErr α → α
  | .error _ => d
  | .ok a => a

/-- A 5-slot double-key table holding the colliding top-level keys `[100]`
and `[105]` (both hash to slot 0). -/
def c2t : DKT Nat := exceptD (dktNew Nat none none)
  (dktRun Nat (some [5]) (some [5]) [(([100], [50]), 1), (([105], [50]), 2)])

/-- The table `c2t` after deleting the pair `([100], [50])`. -/
def c2t' : DKT Nat := exceptD (dktNew Nat none none) (dktDel c2t [100] [50])

/-- A double-key table after inserting the same pair `([0], [0])` twice. -/
def c3t : DKT Nat := exceptD (dktNew Nat none none)
  (dktRun Nat (some [5]) (some [5]) [(([0], [0]), 1), (([0], [0]), 2)])

/-- The inner table of `c3t` under the top-level key `[0]`. -/
def c3inn : LPT Key Nat :=
  exceptD (lptEmpty Key Nat [5]) (lptGet rollingHash c3t.outer [0])

/-- A double-key table holding the single pair `([77], [74]) ↦ 3`. -/
def c7t : DKT Nat := exceptD (dktNew Nat none none)
  (dktRun Nat (some [5]) (some [5]) [(([77], [74]), 3)])

/-- The inner table of `c7t` under the top-level key `[77]`. -/
def c7inn : LPT Key Nat :=
  exceptD (lptEmpty Key Nat [5]) (lptGet rollingHash c7t.outer [77])

/-- An infinite hash table holding `[97,98] ↦ 1` and `[97,99] ↦ 2` (one
forced split at level 0). -/
def c5s1 : RST Nat := (rstRun Nat 5 [([97, 98], 1), ([97, 99], 2)]).getD (rstNew Nat)

/-- The state `get` leaves behind after the failed lookup of `[97,98,122]`
in `c5s1`. -/
def c5s2 : RST Nat := (rstGetS c5s1 [97, 98, 122]).2

/-- An infinite hash table holding the keys `cat` and `car` (character
codes), split down to depth 2. -/
def c8s : RST Nat :=
  (rstRun Nat 5 [([99, 97, 116], 1), ([99, 97, 114], 2)]).getD (rstNew Nat)

/-- An infinite hash table holding only `[97] ↦ 1` (slot 19). -/
def c9s : RST Nat := (rstSetF 1 (rstNew Nat) [97] 1).getD (rstNew Nat)

/-- An open-addressed table holding `[1] ↦ 10` and `[2] ↦ 20`. -/
def c1lt : LPT Key Nat :=
  exceptD (lptEmpty Key Nat [5]) (lptRun Nat [5] [([1], 10), ([2], 20)])

/-- A double-key table holding `([1], [2]) ↦ 10`. -/
def c1dt : DKT Nat := exceptD (dktNew Nat none none)
  (dktRun Nat (some [5]) (some [5]) [(([1], [2]), 10)])

/-- An infinite hash table holding `cat ↦ 1`. -/
def c1rt : RST Nat := (rstRun Nat 5 [([99, 97, 116], 1)]).getD (rstNew Nat)

/-! ## The claims -/

/-- C1: for every table type — the open-addressed table, the double-key
table and the recursive-split table — and every completed sequence of
insertions with pairwise distinct keys, a subsequent `get` of any inserted
key returns exactly the value inserted for it. -/
theorem C1_round_trip {V : Type} :
    (∀ (sizes : List Nat) (ops : List (Key × V)) (t : LPT Key V),
      sizesGood sizes → (ops.map Prod.fst).Nodup →
      lptRun V sizes ops = .ok t →
      ∀ kv ∈ ops, lptGet rollingHash t kv.1 = .ok kv.2) ∧
    (∀ (szs iszs : Option (List Nat)) (ops : List ((Key × Key) × V))
        (t : DKT V),
      sizesGood (szs.getD defaultTableSizes) →
      sizesGood (iszs.getD defaultTableSizes) →
      (ops.map Prod.fst).Nodup → dktRun V szs iszs ops = .ok t →
      ∀ kv ∈ ops, dktGet t kv.1.1 kv.1.2 = .ok kv.2) ∧
    (∀ (fuel : Nat) (ops : List (Key × V)) (t : RST V),
      (ops.map Prod.fst).Nodup → rstRun V fuel ops = some t →
      ∀ kv ∈ ops, rstGet t kv.1 = .ok kv.2) := by
  refine ⟨?_, ?_, ?_⟩
  · intro sizes ops t hs hnd hrun
    exact (lptRun_roundtrip sizes ops hs hnd hrun).2
  · intro szs iszs ops t h1 h2 hnd hrun
    exact (dktRun_roundtrip szs iszs ops h1 h2 hnd hrun).2
  · intro fuel ops t hnd hrun
    exact rstRun_roundtrip hnd hrun

set_option maxRecDepth 1000000 in
set_option maxHeartbeats 4000000 in
unseal rstSetGo rstLocGo in
theorem C1_round_trip_witness :
    lptGet rollingHash c1lt [1] = .ok 10 ∧
    dktGet c1dt [1] [2] = .ok 10 ∧
    rstGet c1rt [99, 97, 116] = .ok 1 :=
  ⟨(@C1_round_trip Nat).1 [5] [([1], 10), ([2], 20)] c1lt
      ⟨by decide, by decide⟩ (by decide) rfl ([1], 10) (by decide),
   (@C1_round_trip Nat).2.1 (some [5]) (some [5]) [(([1], [2]), 10)] c1dt
      ⟨by decide, by decide⟩ ⟨by decide, by decide⟩ (by decide) rfl
      (([1], [2]), 10) (by decide),
   (@C1_round_trip Nat).2.2 5 [([99, 97, 116], 1)] c1rt
      (by decide) rfl ([99, 97, 116], 1) (by decide)⟩

/-- C2, evaluated at its failing input: both colliding pairs are stored and
retrievable, the delete of `([100],[50])` succeeds, and afterwards the
*other* stored pair `([105],[50])` — never deleted — has become
unretrievable, while `len()` still counts it. -/
theorem C2_delete_loses_collider :
    dktGet c2t [105] [50] = .ok 2 ∧
    dktDel c2t [100] [50] = .ok c2t' ∧
    dktGet c2t' [100] [50] = .error .keyNotFound ∧
    dktGet c2t' [105] [50] = .error .keyNotFound ∧
    dktLen c2t' = 1 :=
  ⟨rfl, rfl, rfl, rfl, rfl⟩

/-- C3, evaluated at its failing input: inserting the pair `([0],[0])` a
second time updates the value, but the inner table's `len()` grows to 2
although it stores a single entry — the code increments
`internal_table.count` on an overwrite. -/
theorem C3_overwrite_inflates_inner_len :
    dktGet c3t [0] [0] = .ok 2 ∧
    lptGet rollingHash c3t.outer [0] = .ok c3inn ∧
    lptLen c3inn = 2 ∧
    countOcc c3inn.array = 1 :=
  ⟨rfl, rfl, rfl, rfl⟩

/-- C4, evaluated at its failing input: after the delete in `c2t'`, slot 1
of the outer table is still occupied by the key `[105]`, yet the linear
probe for `[105]` fails — the deletion cleared a slot inside the occupied
run without re-inserting the entries after it, breaking the documented
reachability invariant. -/
theorem C4_delete_leaves_unreachable_slot :
    (c2t'.outer.array.getD 1 none).map Prod.fst = some [105] ∧
    lptProbe rollingHash c2t'.outer [105] false = .error .keyNotFound :=
  ⟨rfl, rfl⟩

set_option maxRecDepth 1000000 in
set_option maxHeartbeats 4000000 in
unseal rstSetGo rstLocGo in
/-- C5, evaluated at its failing input: the failed lookup of `[97,98,122]`
in the infinite hash table answers `KeyNotFound` but leaves the `level`
cursor at 1 instead of 0; the next insert then behaves differently from the
same insert without the failed lookup — its key is lost. -/
theorem C5_failed_lookup_leaks_level :
    (rstGetS c5s1 [97, 98, 122]).1 = .error .keyNotFound ∧
    c5s1.level = 0 ∧ c5s2.level = 1 ∧
    (rstSetF 5 c5s2 [113, 114] 3).map (fun s => rstGet s [113, 114])
      = some (.error .keyNotFound) ∧
    (rstSetF 5 c5s1 [113, 114] 3).map (fun s => rstGet s [113, 114])
      = some (.ok 3) :=
  ⟨rfl, rfl, rfl, rfl, rfl⟩

/-- C6, evaluated at its failing input: with the capacity ladder `[3]`, two
inserts fill the table past the load factor (the first rehash attempt at
the ceiling returns silently, leaving `size_index` already past the end),
and the third insert's rehash indexes `TABLE_SIZES` out of range instead of
being a silent no-op or `TableFull`. -/
theorem C6_saturated_rehash_index_error :
    (dktRun Nat (some [3]) (some [5])
      [(([0], [0]), 1), (([1], [0]), 2)]).isOk = true ∧
    dktRun Nat (some [3]) (some [5])
      [(([0], [0]), 1), (([1], [0]), 2), (([2], [0]), 3)]
      = .error .indexError :=
  ⟨rfl, rfl⟩

/-- C7, counterexample to the claim as stated: in `c7t` the only
bottom-level key is `[74]`, but `keys(None)` returns only the top-level
keys `[[77]]` — it does not enumerate the bottom-level entries. -/
theorem C7_keys_not_flatten :
    dktKeys c7t none = .ok [[77]] ∧
    dktBottomKeys c7t = [[74]] ∧
    ([74] : Key) ∉ [([77] : Key)] :=
  ⟨rfl, rfl, by decide⟩

/-- C7 (amended): `keys(None)` enumerates only the *top-level* keys, while
`values(None)` does flatten both levels; for a present, non-empty top-level
key `k1`, `keys(k1)`/`values(k1)` return the keys/values of its inner
table; and an empty `k1` (falsy in the source's `if key:`) falls back to
the `None` branch of `keys`. -/
theorem C7_keys_values {V : Type} {t : DKT V} (hGood : DKTGood t)
    {k1 : Key} {inn : LPT Key V} (hne : k1 ≠ [])
    (hget : lptGet rollingHash t.outer k1 = .ok inn) :
    dktKeys t none = .ok (dktKeysNone t) ∧
    dktValues t none = .ok (dktBottomValues t) ∧
    dktKeys t (some k1) = .ok (lptKeys inn) ∧
    dktValues t (some k1) = .ok (lptValuesList inn) ∧
    dktKeys t (some []) = .ok (dktKeysNone t) :=
  ⟨rfl, dktValuesNone_eq hGood, dktKeys_some_present hGood hne hget,
   dktValues_some_present hGood hget, rfl⟩

theorem C7_keys_values_witness :
    dktKeys c7t none = .ok (dktKeysNone c7t) ∧
    dktValues c7t none = .ok (dktBottomValues c7t) ∧
    dktKeys c7t (some [77]) = .ok (lptKeys c7inn) ∧
    dktValues c7t (some [77]) = .ok (lptValuesList c7inn) ∧
    dktKeys c7t (some []) = .ok (dktKeysNone c7t) :=
  C7_keys_values
    ((dktRun_roundtrip (some [5]) (some [5]) [(([77], [74]), 3)]
      ⟨by decide, by decide⟩ ⟨by decide, by decide⟩ (by decide)
      (rfl : dktRun Nat (some [5]) (some [5]) [(([77], [74]), 3)]
        = .ok c7t)).1)
    (by decide) rfl

/-- C8: the slot selected at depth `d` is character `d`'s code mod 26 while
characters remain, else the reserved terminal slot 26; every located path
lists exactly these per-depth slots; and two located keys sharing their
first `p` characters (both at least `p` long) give paths that agree on the
first `p` slots and are still inside sub-tables at depth `p`, diverging
exactly at index `p` whenever their hashes differ there. -/
theorem C8_depth_rule {V : Type} {s : RST V} {k k2 : Key} {p : Nat}
    {path path2 : List Nat} {l l2 : Nat}
    (hloc : rstGetLocation s k = (.ok path, l))
    (hloc2 : rstGetLocation s k2 = (.ok path2, l2))
    (hne : k ≠ k2)
    (hp1 : p ≤ k.length) (hp2 : p ≤ k2.length)
    (hpre : ∀ i, i < p → k.getD i 0 = k2.getD i 0) :
    (∀ d, rstHashAt d k = if d < k.length then k.getD d 0 % 26 else 26) ∧
    (∀ i, i < path.length → path.getD i 0 = rstHashAt i k) ∧
    (∀ i, i < path2.length → path2.getD i 0 = rstHashAt i k2) ∧
    p < path.length ∧ p < path2.length ∧ path.take p = path2.take p ∧
    (rstHashAt p k ≠ rstHashAt p k2 → path.getD p 0 ≠ path2.getD p 0) := by
  unfold rstGetLocation at hloc hloc2
  obtain ⟨_, hpath⟩ :=
    rstLocGo_path k (sizeOf s.array) s.array le_rfl 0 path l hloc
  obtain ⟨_, hpath2⟩ :=
    rstLocGo_path k2 (sizeOf s.array) s.array le_rfl 0 path2 l2 hloc2
  have hpath0 : ∀ i, i < path.length → path.getD i 0 = rstHashAt i k := by
    intro i hi
    rw [hpath i hi]
    congr 1
    omega
  have hpath20 : ∀ i, i < path2.length → path2.getD i 0 = rstHashAt i k2 := by
    intro i hi
    rw [hpath2 i hi]
    congr 1
    omega
  have hagree : ∀ j, j < p → rstHashAt (0 + j) k = rstHashAt (0 + j) k2 := by
    intro j hj
    rw [Nat.zero_add]
    unfold rstHashAt
    rw [if_pos (by omega), if_pos (by omega), hpre j hj]
  obtain ⟨hd1, hd2, htake⟩ :=
    rstLocGo_joint k k2 hne p s.array 0 path path2 l l2 hloc hloc2 hagree
  refine ⟨fun d => rfl, hpath0, hpath20, hd1, hd2, htake, ?_⟩
  intro hdiff
  rw [hpath0 p hd1, hpath20 p hd2]
  exact hdiff

set_option maxRecDepth 1000000 in
set_option maxHeartbeats 4000000 in
unseal rstSetGo rstLocGo in
theorem C8_depth_rule_witness :
    ([21, 19, 12] : List Nat).take 2 = ([21, 19, 10] : List Nat).take 2 ∧
    ([21, 19, 12] : List Nat).getD 2 0 ≠ ([21, 19, 10] : List Nat).getD 2 0 := by
  obtain ⟨_, _, _, _, _, htake, hdiv⟩ :=
    @C8_depth_rule Nat c8s [99, 97, 116] [99, 97, 114] 2
      [21, 19, 12] [21, 19, 10] 0 0 rfl rfl (by decide) (by decide) (by decide)
      (by decide)
  exact ⟨htake, hdiv (by decide)⟩

set_option maxRecDepth 1000000 in
set_option maxHeartbeats 4000000 in
unseal rstSetGo in
/-- C9, counterexample to the claim as stated: the distinct finite keys
`[97]` and `[123]` hash identically at every depth (19 at depth 0, the
terminal slot beyond), so inserting `[123]` into a table holding `[97]`
loops forever — no amount of splitting fuel makes `__setitem__` finish. -/
theorem C9_split_loop_cex :
    ([97] : Key) ≠ [123] ∧
    ¬ ∃ fuel s2, rstSetF fuel c9s [123] (7 : Nat) = some s2 := by
  constructor
  · decide
  · rintro ⟨fuel, s2, hset⟩
    have hlvl : c9s.level = 0 := rfl
    have hslot : c9s.array.getD (rstHashAt 0 [123]) none
        = some (.pair [97] 1) := rfl
    unfold rstSetF at hset
    rw [hlvl, rstSetGo_pair hslot, if_neg (by decide),
      rstChain_97_123 1 7 fuel 1] at hset
    exact Option.noConfusion hset

/-- C9 (amended): in a hash-consistently placed table at rest (cursor at
level 0), inserting a key that is hash-separated at some depth from every
stored key terminates — some splitting fuel makes `__setitem__` succeed.
As literally stated ("for every finite key") the claim is false: see the
counterexample with `[97]` and `[123]`. -/
theorem C9_termination {V : Type} {s : RST V} {k : Key} (v : V)
    (hlvl : s.level = 0) (hplaced : placedOkB 0 0 s.array = true)
    (hsep : ∀ k0 ∈ keysIn s.array, k0 ≠ k →
      ∃ d, rstHashAt d k0 ≠ rstHashAt d k) :
    ∃ fuel s2, rstSetF fuel s k v = some s2 := by
  obtain ⟨fuel, td, hgo⟩ := rstSetGo_total k v (sizeOf s.array) s.array
    le_rfl 0 hplaced hsep (fun k0 _ j hj => absurd hj (Nat.not_lt_zero j))
  refine ⟨fuel, (⟨td.1, 0, s.count + td.2,
    if s.keys.contains k then s.keys else s.keys ++ [k]⟩ : RST V), ?_⟩
  unfold rstSetF
  rw [hlvl, hgo]

set_option maxRecDepth 1000000 in
set_option maxHeartbeats 4000000 in
unseal rstSetGo keysIn placedOkB in
theorem C9_termination_witness :
    ∃ fuel s2, rstSetF fuel c5s1 [99] (7 : Nat) = some s2 := by
  refine C9_termination 7 rfl rfl ?_
  have hkeys : keysIn c5s1.array = [[97, 98], [97, 99]] := rfl
  intro k0 hk0 _
  rw [hkeys] at hk0
  rcases List.mem_cons.1 hk0 with he | hk0
  · exact ⟨1, by rw [he]; decide⟩
  · rcases List.mem_cons.1 hk0 with he | hk0
    · exact ⟨1, by rw [he]; decide⟩
    · exact absurd hk0 (List.not_mem_nil k0)

/-- C10: `len()` of the double-key table counts the distinct top-level
keys: it equals the length of the (duplicate-free) top-level key list; a
fresh-pair insert raises it by 1 exactly when the top-level key is new; and
a delete lowers it by 1 exactly when it empties (and discards) the found
inner table, whose occupancy is positive before the delete. -/
theorem C10_len_top_level {V : Type} {t : DKT V} (hGood : DKTGood t) :
    dktLen t = (dktKeysNone t).length ∧ (dktKeysNone t).Nodup ∧
    (∀ (k1 k2 : Key) (v : V) (t2 : DKT V),
      (dktGet t k1 k2).isOk = false → dktSet t k1 k2 v = .ok t2 →
      dktLen t2 = dktLen t +
        (if (lptGet rollingHash t.outer k1).isOk then 0 else 1)) ∧
    (∀ (k1 k2 : Key) (t2 : DKT V), dktDel t k1 k2 = .ok t2 →
      ∃ pos kin, t.outer.array.getD pos none = some kin ∧ kin.1 = k1 ∧
        1 ≤ lptLen kin.2 ∧
        (lptLen kin.2 = 1 → dktLen t2 = dktLen t - 1) ∧
        (lptLen kin.2 ≠ 1 → dktLen t2 = dktLen t)) := by
  refine ⟨dktLen_eq_topkeys hGood, ?_, ?_, ?_⟩
  · rw [show dktKeysNone t = lptKeys t.outer from rfl, lptKeys_eq_entries]
    exact lptGood_keys_nodup hGood.outer
  · intro k1 k2 v t2 hfresh hset
    exact (dktSet_outcome hGood hfresh hset).2.2.2.1
  · intro k1 k2 t2 hdel
    obtain ⟨pos, kin, harr, hk, _, hcnt, h1, h2⟩ := dktDel_len hGood hdel
    exact ⟨pos, kin, harr, hk, hcnt, fun hone => (h1 hone).2, h2⟩

theorem C10_len_top_level_witness :
    dktLen c2t = (dktKeysNone c2t).length ∧ (dktKeysNone c2t).Nodup :=
  have hGood : DKTGood c2t :=
    (dktRun_roundtrip (some [5]) (some [5])
      [(([100], [50]), 1), (([105], [50]), 2)]
      ⟨by decide, by decide⟩ ⟨by decide, by decide⟩ (by decide)
      (rfl : dktRun Nat (some [5]) (some [5])
        [(([100], [50]), 1), (([105], [50]), 2)] = .ok c2t)).1
  ⟨(C10_len_top_level hGood).1, (C10_len_top_level hGood).2.1⟩
